import Mathlib



/-!
Verification development for the enhanced retrieval pipeline
(`rag-advanced/rag_pipeline_enhanced.py`).

Modelling conventions:
* A retrieved record (a Python dict) is the structure `Doc`; a dict key that may
  be absent or hold `None` is an `Option` field, and the Python idiom
  `d.get(key, 0) or 0` is `Option.getD _ 0` (respectively `orStr` for string
  fields, since `"" or dflt` also yields `dflt`).
* Float scores are modelled as exact rationals (`Rat`).
* The in-place mutation performed by `hybrid_search` on the records returned by
  the two retrievers is modelled by explicit state passing: `FuseState` carries
  the dense list, the sparse list and the merge dictionary, whose values are
  references (`Ref`) into the two lists, exactly as the Python dict aliases the
  list elements.  The Python dict preserves insertion order and overwriting an
  existing key keeps its position, which `upsertKey` reproduces.
* The dense seeding loop writes `hybrid_score` on every dense record and upserts
  the merge map; the two effects are independent (the key is read from fields
  the write does not touch), so they are modelled as a `List.map` and a fold.
* The sparse merge loop at step `j` reads record `j` of the (already
  normalized) sparse list; earlier steps can only have mutated records with
  index `< j`, so iterating over the original normalized list is faithful.
* `sorted(..., key=..., reverse=True)` is a stable descending sort; it is
  modelled by `List.insertionSort` with the reflexive descending comparison,
  which is exactly the stable descending sort.
* External calls (embedding model, index queries, generation model) are oracles
  passed as arguments; a Python exception raised by an external call is the
  `Except.error` case, and a `try/except` block is a `match` on that value.
-/

/-- A retrieved document record (Python dict). -/
structure Doc where
  bank_name : Option String := none
  quarter : Option String := none
  year : Option Int := none
  report_type : Option String := none
  content : Option String := none
  score : Option Rat := none
  distance : Option Rat := none
  similarity : Option Rat := none
  normalized_score : Option Rat := none
  hybrid_score : Option Rat := none
  original_content : Option String := none
  compressed : Option Bool := none
  source : String := ""
deriving Repr, DecidableEq

/-- Default record used to totalize list indexing (indices are in range by construction). -/
def dfltDoc : Doc := {}

/-- Python `opt or dflt` for string values: `None` and `""` are falsy. -/
def orStr (v : Option String) (dflt : String) : String :=
  match v with
  | none => dflt
  | some s => if s = "" then dflt else s

/-- Python `doc.get("similarity", 0) or 0`. -/
def simVal (d : Doc) : Rat := d.similarity.getD 0

/-- Python `doc.get("score", 0) or 0`. -/
def scoreVal (d : Doc) : Rat := d.score.getD 0

/-- Python `doc.get("normalized_score", 0)`. -/
def normVal (d : Doc) : Rat := d.normalized_score.getD 0

/-- The `hybrid_score` value of a record (always present on merged records). -/
def hybridVal (d : Doc) : Rat := d.hybrid_score.getD 0

/-- The dedup key `f"{bank}_{quarter}_{year}_{report_type}"` built in
`hybrid_search`, with falsy values replaced by the `unknown`/`0` sentinels. -/
def docKey (d : Doc) : String :=
  orStr d.bank_name "unknown" ++ "_" ++ orStr d.quarter "unknown" ++ "_" ++
    toString (d.year.getD 0) ++ "_" ++ orStr d.report_type "unknown"

/-- Python `max(scores) if scores else 1`. -/
def maxScore : List Rat → Rat
  | [] => 1
  | x :: xs => xs.foldl max x

/-- The dense normalization loop of `hybrid_search` (lines 314-319):
`doc["normalized_score"] = sim / max_sim if max_sim > 0 else 0`. -/
def normalizeVector (docs : List Doc) : List Doc :=
  docs.map fun d =>
    { d with
        normalized_score := some (if 0 < maxScore (docs.map simVal) then simVal d / maxScore (docs.map simVal) else 0) }

/-- The sparse normalization loop of `hybrid_search` (lines 321-326). -/
def normalizeBm25 (docs : List Doc) : List Doc :=
  docs.map fun d =>
    { d with
        normalized_score := some (if 0 < maxScore (docs.map scoreVal) then scoreVal d / maxScore (docs.map scoreVal) else 0) }

/-- A reference into one of the two retriever result lists; the merge dict of
`hybrid_search` holds such aliases. -/
inductive Ref where
  | dense (i : Nat)
  | sparse (i : Nat)
deriving Repr, DecidableEq

/-- Whether a reference points into the dense list. -/
def Ref.isDense : Ref → Bool
  | .dense _ => true
  | .sparse _ => false

/-- The mutable state of the fusion phase of `hybrid_search`: the two result
lists and the insertion-ordered merge dict `merged`. -/
structure FuseState where
  dense : List Doc
  sparse : List Doc
  merged : List (String × Ref)
deriving Repr, DecidableEq

/-- Dereference an alias into the current state. -/
def getRef (st : FuseState) : Ref → Doc
  | .dense i => st.dense.getD i dfltDoc
  | .sparse i => st.sparse.getD i dfltDoc

/-- Mutate the record an alias points to. -/
def updateRef (st : FuseState) (r : Ref) (f : Doc → Doc) : FuseState :=
  match r with
  | .dense i => { st with dense := st.dense.set i (f (st.dense.getD i dfltDoc)) }
  | .sparse i => { st with sparse := st.sparse.set i (f (st.sparse.getD i dfltDoc)) }

/-- Python `merged[key] = doc`: overwriting keeps the key position, otherwise the
pair is appended. -/
def upsertKey (k : String) (r : Ref) : List (String × Ref) → List (String × Ref)
  | [] => [(k, r)]
  | e :: rest => if e.1 = k then (k, r) :: rest else e :: upsertKey k r rest

/-- The merge-map effect of the dense seeding loop (lines 330-338). -/
def seedMerged : List (String × Ref) → Nat → List Doc → List (String × Ref)
  | m, _, [] => m
  | m, i, d :: rest => seedMerged (upsertKey (docKey d) (Ref.dense i) m) (i + 1) rest

/-- The per-record effect of the dense seeding loop:
`doc["hybrid_score"] = alpha * doc.get("normalized_score", 0)`. -/
def setDenseHybrid (alpha : Rat) (d : Doc) : Doc :=
  { d with hybrid_score := some (alpha * normVal d) }

/-- The duplicate-key branch of the sparse merge loop (lines 347-349):
`merged[key]["hybrid_score"] += (1 - alpha) * doc.get("normalized_score", 0)`
and `merged[key]["source"] = "hybrid"`, applied to the aliased record `m`. -/
def addSparse (alpha : Rat) (d : Doc) (m : Doc) : Doc :=
  { m with hybrid_score := some (hybridVal m + (1 - alpha) * normVal d), source := "hybrid" }

/-- One iteration of the sparse merge loop (lines 340-352) on sparse record `d`
sitting at index `j`. -/
def mergeStep (alpha : Rat) (d : Doc) (j : Nat) (st : FuseState) : FuseState :=
  match st.merged.lookup (docKey d) with
  | some r => updateRef st r (addSparse alpha d)
  | none =>
      { st with
        sparse := st.sparse.set j { d with hybrid_score := some ((1 - alpha) * normVal d) },
        merged := st.merged ++ [(docKey d, Ref.sparse j)] }

/-- The sparse merge loop, iterating the normalized sparse records from index `j`. -/
def mergeSparseLoop (alpha : Rat) : List Doc → Nat → FuseState → FuseState
  | [], _, st => st
  | d :: rest, j, st => mergeSparseLoop alpha rest (j + 1) (mergeStep alpha d j st)

/-- The state after the whole fusion phase of `hybrid_search` (normalization,
dense seeding, sparse merge) on non-empty inputs. -/
def fuseState (vector_results bm25_results : List Doc) (alpha : Rat) : FuseState :=
  mergeSparseLoop alpha (normalizeBm25 bm25_results) 0
    { dense := (normalizeVector vector_results).map (setDenseHybrid alpha),
      sparse := normalizeBm25 bm25_results,
      merged := seedMerged [] 0 (normalizeVector vector_results) }

/-- Python `merged.values()` in insertion order, dereferenced in the final state. -/
def mergedValues (st : FuseState) : List Doc := st.merged.map fun e => getRef st e.2

/-- The records of the merge map that were seeded by the dense loop, in order. -/
def densePartVals (st : FuseState) : List Doc :=
  (st.merged.filter fun e => e.2.isDense).map fun e => getRef st e.2

/-- The records of the merge map inserted by the sparse loop, in order. -/
def sparsePartVals (st : FuseState) : List Doc :=
  (st.merged.filter fun e => !e.2.isDense).map fun e => getRef st e.2

/-- Comparison used by `sorted(..., key=lambda x: x["hybrid_score"], reverse=True)`. -/
def hybridGe (a b : Doc) : Prop := hybridVal b ≤ hybridVal a

instance : DecidableRel hybridGe :=
  fun a b => inferInstanceAs (Decidable (hybridVal b ≤ hybridVal a))

instance : IsTotal Doc hybridGe :=
  ⟨fun a b => le_total (hybridVal b) (hybridVal a)⟩

instance : IsTrans Doc hybridGe :=
  ⟨fun _ _ _ h1 h2 => le_trans h2 h1⟩

/-- Python `sorted(..., reverse=True)`: the stable descending sort. -/
def sortDesc (docs : List Doc) : List Doc := List.insertionSort hybridGe docs

/-- The fusion part of `hybrid_search` (lines 305-356), from the two retriever
result lists to `(returned list, dense list after the call, sparse list after
the call)`; the last two components record the in-place mutation of the
records of the caller. -/
def hybrid_search_fuse (vector_results bm25_results : List Doc) (top_k : Nat) (alpha : Rat) :
    List Doc × List Doc × List Doc :=
  if vector_results = [] ∧ bm25_results = [] then ([], vector_results, bm25_results)
  else if vector_results = [] then (bm25_results.take top_k, vector_results, bm25_results)
  else if bm25_results = [] then (vector_results.take top_k, vector_results, bm25_results)
  else
    ((sortDesc (mergedValues (fuseState vector_results bm25_results alpha))).take top_k,
      (fuseState vector_results bm25_results alpha).dense,
      (fuseState vector_results bm25_results alpha).sparse)

/-- The identity key of the spec data model: the raw field tuple. -/
def sameIdentity (a b : Doc) : Prop :=
  a.bank_name = b.bank_name ∧ a.quarter = b.quarter ∧ a.year = b.year ∧
    a.report_type = b.report_type

/-- Key list of a result list. -/
def keyListOf (docs : List Doc) : List String := docs.map docKey

/-- The normalized score a list assigns to key `k` (first record with that key,
0 when the key is absent), used to state the blending formula. -/
def normAt (docs : List Doc) (k : String) : Rat :=
  match docs.find? fun d => docKey d = k with
  | some d => normVal d
  | none => 0

/-- An object returned by the Weaviate near-vector query. -/
structure WvObj where
  bank_name : Option String := none
  quarter : Option String := none
  year : Option Int := none
  report_type : Option String := none
  content : Option String := none
  distance : Rat := 0
deriving Repr, DecidableEq

/-- The record built from one index object by `vector_search` (lines 224-235). -/
def wvToDoc (o : WvObj) : Doc :=
  { bank_name := o.bank_name, quarter := o.quarter, year := o.year,
    report_type := o.report_type, content := o.content,
    distance := some o.distance, similarity := some (1 - o.distance),
    source := "vector" }

/-- Model of `vector_search` (lines 193-241): the query is embedded outside the
`try` block, so an embedding failure propagates; the index query sits inside
`try/except`, whose failure yields `[]`.  The embedding result and the index
call are oracles. -/
def vector_search (embedResult : Except String (List Rat))
    (indexSearch : List Rat → Except String (List WvObj)) : Except String (List Doc) :=
  match embedResult with
  | Except.error e => Except.error e
  | Except.ok qv =>
      match indexSearch qv with
      | Except.error _ => Except.ok []
      | Except.ok objs => Except.ok (objs.map wvToDoc)

/-- Python `s[:n]`. -/
def pyTake (n : Nat) (s : String) : String := String.mk (s.toList.take n)

/-- The compression prompt of `compress_context` (lines 405-419). -/
def compressPrompt (query content : String) : String :=
  "Extract only the information relevant to this query from the document below.\n\nQuery: "
    ++ query ++ "\n\nDocument Content:\n" ++ content ++
    "\n\nInstructions:\n1. Extract only facts and figures directly relevant to the query\n2. Keep specific numbers, percentages, and metrics mentioned\n3. Remove introductory text, disclaimers, and unrelated information\n4. Keep the response concise (max 300 words)\n5. If nothing is relevant, return \"NO_RELEVANT_INFO\"\n\nRelevant Information:"

/-- The per-document body of `compress_context` (lines 403-444).  The whole body
runs inside `try/except`: a missing/None `content` raises before the model call
and keeps the record; a model failure keeps the record; the sentinel or a short
answer keeps the record; otherwise the content is replaced on a copy. -/
def compressOne (llm : String → Except Unit String) (query : String) (doc : Doc) : Doc :=
  match doc.content with
  | none => { doc with compressed := some false }
  | some content =>
      match llm (compressPrompt query (pyTake 1500 content)) with
      | Except.error _ => { doc with compressed := some false }
      | Except.ok raw =>
          if raw.trim ≠ "NO_RELEVANT_INFO" ∧ 20 < raw.trim.length then
            { doc with
                original_content := some content,
                content := some raw.trim,
                compressed := some true }
          else { doc with compressed := some false }

/-- Model of `compress_context` (lines 393-446); the generation model is an
oracle from the prompt to the text of the first response block. -/
def compress_context (iteration : Nat) (llm : String → Except Unit String) (query : String)
    (documents : List Doc) : List Doc :=
  if iteration < 4 ∨ documents = [] then documents
  else documents.map (compressOne llm query)

/-- Agreement on the identity fields, used to state order preservation. -/
def keepsIdentity (d o : Doc) : Prop :=
  o.bank_name = d.bank_name ∧ o.quarter = d.quarter ∧ o.year = d.year ∧
    o.report_type = d.report_type

/-- Boolean list-prefix test on characters. -/
def listPrefixOf : List Char → List Char → Bool
  | [], _ => true
  | _ :: _, [] => false
  | a :: as, b :: bs => a == b && listPrefixOf as bs

/-- Boolean substring test on characters. -/
def listSubstr (needle : List Char) : List Char → Bool
  | [] => listPrefixOf needle []
  | c :: rest => listPrefixOf needle (c :: rest) || listSubstr needle rest

/-- Python `needle in hay` on strings. -/
def strContainsSub (hay needle : String) : Bool := listSubstr needle.toList hay.toList

/-- Python `s.lower()` (ASCII, matching the configured vocabulary). -/
def strLower (s : String) : String := String.mk (s.toList.map Char.toLower)

/-- Python `s.upper()` (ASCII). -/
def strUpper (s : String) : String := String.mk (s.toList.map Char.toUpper)

/-- Python `s.replace(pat, repl)` for a non-empty pattern: replace all
non-overlapping occurrences, scanning left to right (fuelled by the length). -/
def replaceAux (pat repl : List Char) : Nat → List Char → List Char
  | 0, cs => cs
  | _ + 1, [] => []
  | fuel + 1, c :: rest =>
      if listPrefixOf pat (c :: rest) then
        repl ++ replaceAux pat repl fuel ((c :: rest).drop pat.length)
      else c :: replaceAux pat repl fuel rest

/-- Python `s.replace(pat, repl)` on strings. -/
def pyReplace (s pat repl : String) : String :=
  String.mk (replaceAux pat.toList repl.toList (s.toList.length + 1) s.toList)

/-- `Config.BANKS` from `config.py`. -/
def BANKS : List String := ["Halyk Bank", "Kaspi Bank", "ForteBank"]

/-- The metadata dict built by `_extract_metadata`. -/
structure QueryMetadata where
  banks : List String := []
  quarters : List String := []
  years : List Int := []
deriving Repr, DecidableEq

/-- Python regex `\w` (ASCII range; the configured vocabulary is ASCII). -/
def isWordChar (c : Char) : Bool := c.isAlphanum || c == '_'

/-- Word boundary against the previous character. -/
def bndBefore : Option Char → Bool
  | none => true
  | some c => !isWordChar c

/-- Word boundary against the following characters. -/
def bndAfter : List Char → Bool
  | [] => true
  | c :: _ => !isWordChar c

/-- Scanner for `re.findall` with pattern `\bQ[1-4]\b` and `re.IGNORECASE`:
left-to-right, non-overlapping, returning matched text. -/
def findQ14 : Option Char → List Char → List String
  | _, [] => []
  | _, [_] => []
  | prev, c :: d :: rest =>
      if (c == 'Q' || c == 'q') && (d == '1' || d == '2' || d == '3' || d == '4')
          && bndBefore prev && bndAfter rest then
        String.mk [c, d] :: findQ14 (some d) rest
      else findQ14 (some c) (d :: rest)

/-- Case-insensitive match of a lowercase pattern against a prefix; returns the rest. -/
def matchCI : List Char → List Char → Option (List Char)
  | [], cs => some cs
  | _, [] => none
  | a :: as, c :: cs => if c.toLower == a then matchCI as cs else none

/-- Alternatives of `(?:first|second|third|fourth)`. -/
def ordQuarterWords : List String := ["first", "second", "third", "fourth"]

/-- Try `\b(?:first|second|third|fourth) quarter\b` (IGNORECASE) at the current
position; returns the consumed length. -/
def tryOrdQuarter (prev : Option Char) (cs : List Char) : Option Nat :=
  if bndBefore prev then
    (ordQuarterWords.map String.toList).findSome? fun w =>
      match matchCI w cs with
      | none => none
      | some rest1 =>
          match rest1 with
          | ' ' :: rest2 =>
              match matchCI "quarter".toList rest2 with
              | none => none
              | some rest3 => if bndAfter rest3 then some (w.length + 8) else none
          | _ => none
  else none

/-- Scanner for the ordinal-quarter pattern (fuelled by the input length). -/
def findOrdQuarters : Nat → Option Char → List Char → List String
  | 0, _, _ => []
  | _ + 1, _, [] => []
  | fuel + 1, prev, c :: rest =>
      match tryOrdQuarter prev (c :: rest) with
      | some n =>
          String.mk ((c :: rest).take n) ::
            findOrdQuarters fuel (some ((c :: rest).getD (n - 1) ' ')) ((c :: rest).drop n)
      | none => findOrdQuarters fuel (some c) rest

/-- Scanner for `re.findall` with pattern `\b(202[0-9])\b`, already converted by
`int(...)` as in `_extract_metadata`. -/
def findYears : Option Char → List Char → List Int
  | _, [] => []
  | prev, '2' :: '0' :: '2' :: d :: rest2 =>
      if d.isDigit && bndBefore prev && bndAfter rest2 then
        (2020 + ((d.toNat : Int) - 48)) :: findYears (some d) rest2
      else findYears (some '2') ('0' :: '2' :: d :: rest2)
  | _, c :: rest => findYears (some c) rest
termination_by _ cs => cs.length
decreasing_by all_goals (simp [List.length_cons]; try omega)

/-- The `quarter_map` of `_extract_metadata`. -/
def quarterWordMap : List (String × String) :=
  [("first", "Q1"), ("second", "Q2"), ("third", "Q3"), ("fourth", "Q4")]

/-- The per-match body of the quarter loop in `_extract_metadata` (lines 115-122). -/
def processQuarterMatch (m : String) : List String :=
  if listPrefixOf "Q".toList (strUpper m).toList then [strUpper m]
  else (quarterWordMap.filter fun wq => strContainsSub (strLower m) wq.1).map Prod.snd

/-- Model of `_extract_metadata` (lines 97-128). -/
def extract_metadata (query : String) : QueryMetadata :=
  { banks := BANKS.filter fun b => strContainsSub (strLower query) (strLower b),
    quarters :=
      ((findQ14 none query.toList).map processQuarterMatch).flatten ++
        ((findOrdQuarters (query.toList.length + 1) none query.toList).map
          processQuarterMatch).flatten,
    years := findYears none query.toList }

/-- Count of leading whitespace characters (`\s+` is greedy and the tail
pattern starts with a non-whitespace letter, so maximal munch is exact). -/
def wsCount : List Char → Nat
  | [] => 0
  | c :: rest => if c.isWhitespace then wsCount rest + 1 else 0

/-- Alternatives of `(all|three|both)`. -/
def altWords : List String := ["all", "three", "both"]

/-- Match `(banks?)\b` at the current position; returns the consumed length. -/
def tryBanksTail (cs : List Char) : Option Nat :=
  match matchCI "bank".toList cs with
  | none => none
  | some rest =>
      match rest with
      | c :: rest2 =>
          if c == 's' || c == 'S' then
            if bndAfter rest2 then some 5 else none
          else if bndAfter rest then some 4 else none
      | [] => some 4

/-- Try `\b(all|three|both)\s+(banks?)\b` (IGNORECASE) at the current position;
returns the consumed length. -/
def tryAllBothThree (prev : Option Char) (cs : List Char) : Option Nat :=
  if bndBefore prev then
    (altWords.map String.toList).findSome? fun w =>
      match matchCI w cs with
      | none => none
      | some rest1 =>
          if wsCount rest1 = 0 then none
          else
            match tryBanksTail (rest1.drop (wsCount rest1)) with
            | none => none
            | some nb => some (w.length + wsCount rest1 + nb)
  else none

/-- The substitution loop of `re.sub` with pattern `\b(all|three|both)\s+(banks?)\b`,
replacement `bank` and `re.IGNORECASE` (fuelled by the input length). -/
def subBanksAux (bank : List Char) : Nat → Option Char → List Char → List Char
  | 0, _, cs => cs
  | _ + 1, _, [] => []
  | fuel + 1, prev, c :: rest =>
      match tryAllBothThree prev (c :: rest) with
      | some n =>
          bank ++ subBanksAux bank fuel (some ((c :: rest).getD (n - 1) ' ')) ((c :: rest).drop n)
      | none => c :: subBanksAux bank fuel (some c) rest

/-- The `re.sub` call of `_decompose_comparison` (line 139). -/
def subBanksPattern (s bank : String) : String :=
  String.mk (subBanksAux bank.toList (s.toList.length + 1) none s.toList)

/-- The apostrophe character of the rewrite template. -/
def apostrophe : String := String.singleton (Char.ofNat 39)

/-- Model of `_decompose_comparison` (lines 130-143). -/
def decompose_comparison (query : String) (metadata : QueryMetadata) : List String :=
  if 2 ≤ metadata.banks.length then
    (fun sub_queries => if 1 < sub_queries.length then sub_queries else [query])
      (metadata.banks.map fun bank =>
        subBanksPattern (pyReplace query "compare" ("What is " ++ bank ++ apostrophe ++ "s")) bank)
  else [query]

/-- Model of `_decompose_trend` (lines 145-152): both branches return the query
unchanged. -/
def decompose_trend (query : String) (metadata : QueryMetadata) : List String :=
  if metadata.quarters = [] then [query] else [query]

/-- Comparison keywords of `decompose_query` (line 83). -/
def comparisonKeywords : List String := ["compare", "comparison", "versus", "vs", "between"]

/-- Trend keywords of `decompose_query` (line 88). -/
def trendKeywords : List String := ["trend", "change", "evolve", "growth", "over time"]

/-- Model of `decompose_query` (lines 71-95). -/
def decompose_query (iteration : Nat) (query : String) : List String × QueryMetadata :=
  if iteration < 3 then ([query], {})
  else
    (fun metadata =>
      if comparisonKeywords.any (fun k => strContainsSub (strLower query) k) then
        (decompose_comparison query metadata, metadata)
      else if trendKeywords.any (fun k => strContainsSub (strLower query) k) then
        (decompose_trend query metadata, metadata)
      else ([query], metadata))
      (extract_metadata query)

/-- Concrete dense record, similarity 1. -/
def docSimA : Doc := { bank_name := some "A", similarity := some 1, source := "vector" }

/-- Concrete dense record, similarity -1 (a cosine distance above 1). -/
def docSimB : Doc := { bank_name := some "B", similarity := some (-1), source := "vector" }

/-- Concrete dense record sharing the identity key of `docSimA`, similarity 1/2. -/
def docSimA2 : Doc := { bank_name := some "A", similarity := some (1/2), source := "vector" }

/-- Concrete dense record, similarity 0. -/
def docSimZ : Doc := { bank_name := some "Z", similarity := some 0, source := "vector" }

/-- Concrete sparse record, score 2. -/
def docBmC : Doc := { bank_name := some "C", score := some 2, source := "bm25" }

/-- Concrete sparse record, score 1. -/
def docBmB1 : Doc := { bank_name := some "B", score := some 1, source := "bm25" }

/-- Concrete sparse record sharing the identity key of `docBmB1`, score 1/2. -/
def docBmB2 : Doc := { bank_name := some "B", score := some (1/2), source := "bm25" }

/-- Concrete sparse record sharing the identity key of `docSimA`. -/
def docBmA : Doc := { bank_name := some "A", score := some 1, source := "bm25" }

/-- Index-search oracle that fails with a transport error. -/
def failSearch : List Rat → Except String (List WvObj) := fun _ => Except.error "connection refused"

/-- Generation-model oracle that fails. -/
def failLlm : String → Except Unit String := fun _ => Except.error ()

/-- Validity of an alias with respect to a state. -/
def refValid (st : FuseState) : Ref → Prop
  | .dense i => i < st.dense.length
  | .sparse i => i < st.sparse.length

/-- Index of the last record carrying key `k` (the one `merged[key] = doc`
leaves in the dict after the dense seeding loop). -/
def lastKeyIdx (k : String) : List Doc → Option Nat
  | [] => none
  | d :: rest =>
      match lastKeyIdx k rest with
      | some j => some (j + 1)
      | none => if docKey d = k then some 0 else none

/-- The normalized score of the record that survives key dedup (the last record
with key `k`), 0 when the key is absent. -/
def lastNormAt (docs : List Doc) (k : String) : Rat :=
  match lastKeyIdx k docs with
  | some j => normVal (docs.getD j dfltDoc)
  | none => 0

/-- The hybrid score held by the merge map at key `k` (0 when absent). -/
def mergedHybridAt (st : FuseState) (k : String) : Rat :=
  match st.merged.lookup k with
  | some r => hybridVal (getRef st r)
  | none => 0

/-- Well-formedness of the fusion state: every merge-map alias is valid and
points at a record carrying the key of the entry, and the keys are pairwise
distinct. -/
def StInv (st : FuseState) : Prop :=
  (∀ e ∈ st.merged, refValid st e.2 ∧ docKey (getRef st e.2) = e.1) ∧
  (st.merged.map Prod.fst).Nodup

/-- All sparse aliases in the merge map point below the loop position. -/
def SparseIdxLt (st : FuseState) (j : Nat) : Prop :=
  ∀ e ∈ st.merged, ∀ i, e.2 = Ref.sparse i → i < j

/-- The merge map is the dense-seeded entries followed by the sparse-inserted
entries. -/
def DenseThenSparse (st : FuseState) : Prop :=
  ∃ D S, st.merged = D ++ S ∧ (∀ e ∈ D, e.2.isDense = true) ∧ (∀ e ∈ S, e.2.isDense = false)

/-- The state of the fusion phase right after normalization and dense seeding. -/
def seedState (vr br : List Doc) (alpha : Rat) : FuseState :=
  { dense := (normalizeVector vr).map (setDenseHybrid alpha),
    sparse := normalizeBm25 br,
    merged := seedMerged [] 0 (normalizeVector vr) }

/-- Concrete fusion state used to exercise the merge-step lemmas. -/
def stEx : FuseState :=
  { dense := [docSimA], sparse := [docBmA], merged := [(docKey docSimA, Ref.dense 0)] }

/-- Indexing through a `map` at an in-range position. -/
theorem getD_map_of_lt (f : Doc → Doc) (l : List Doc) (i : Nat) (da db : Doc)
    (h : i < l.length) : (l.map f).getD i db = f (l.getD i da) := by
  simp [List.getD_eq_getElem?_getD, List.getElem?_map, List.getElem?_eq_getElem h]

/-- The seed of a left max-fold is bounded by the fold. -/
theorem le_foldl_max_self (ys : List Rat) : ∀ a : Rat, a ≤ ys.foldl max a := by
  induction ys with
  | nil => intro a; exact le_refl a
  | cons y ys ih =>
      intro a
      calc a ≤ max a y := le_max_left a y
        _ ≤ ys.foldl max (max a y) := ih (max a y)

/-- Every element of a list is bounded by a left max-fold over it. -/
theorem le_foldl_max_mem (ys : List Rat) : ∀ a x : Rat, x ∈ ys → x ≤ ys.foldl max a := by
  induction ys with
  | nil => intro a x hx; cases hx
  | cons y ys ih =>
      intro a x hx
      rcases List.mem_cons.mp hx with h | h
      · subst h
        calc x ≤ max a x := le_max_right a x
          _ ≤ ys.foldl max (max a x) := le_foldl_max_self ys (max a x)
      · exact ih (max a y) x h

/-- Membership bound for `maxScore`. -/
theorem le_maxScore {x : Rat} {xs : List Rat} (h : x ∈ xs) : x ≤ maxScore xs := by
  cases xs with
  | nil => cases h
  | cons y ys =>
      rcases List.mem_cons.mp h with h | h
      · exact h ▸ le_foldl_max_self ys y
      · exact le_foldl_max_mem ys y x h

/-- C5: fusing a non-empty dense list with an empty sparse list returns the dense
list truncated to `top_k` with every record unchanged (and the inputs untouched),
and symmetrically for an empty dense list. -/
theorem c5_one_empty_passthrough (dense sparse : List Doc) (top_k : Nat) (alpha : Rat)
    (hd : dense ≠ []) (hs : sparse ≠ []) :
    hybrid_search_fuse dense [] top_k alpha = (dense.take top_k, dense, []) ∧
    hybrid_search_fuse [] sparse top_k alpha = (sparse.take top_k, [], sparse) := by
  constructor
  · simp [hybrid_search_fuse, hd]
  · simp [hybrid_search_fuse, hs]

/-- C5 witness: the passthrough behaviour at concrete one-element lists. -/
theorem c5_witness :
    hybrid_search_fuse [docSimA] [] 10 (1/2) = ([docSimA], [docSimA], []) ∧
    hybrid_search_fuse [] [docBmC] 10 (1/2) = ([docBmC], [], [docBmC]) :=
  c5_one_empty_passthrough [docSimA] [docBmC] 10 (1/2) (by decide) (by decide)

/-- C4 (amended): once the query embedding has succeeded, `vector_search` never
raises: an index-search transport failure yields the empty list; only a failure
of the embedding call itself propagates to the caller. -/
theorem c4_amended_no_raise_after_embed (qv : List Rat)
    (indexSearch : List Rat → Except String (List WvObj)) :
    (∃ docs, vector_search (Except.ok qv) indexSearch = Except.ok docs) ∧
    (∀ e, indexSearch qv = Except.error e →
      vector_search (Except.ok qv) indexSearch = Except.ok []) := by
  constructor
  · match h : indexSearch qv with
    | Except.error e => exact ⟨[], by simp [vector_search, h]⟩
    | Except.ok objs => exact ⟨objs.map wvToDoc, by simp [vector_search, h]⟩
  · intro e he
    simp [vector_search, he]

/-- C4 witness: with a failing index search, `vector_search` returns `ok []`. -/
theorem c4_witness :
    vector_search (Except.ok [1]) failSearch = Except.ok [] :=
  (c4_amended_no_raise_after_embed [1] failSearch).2 "connection refused" rfl

/-- C4 counterexample: a failure of the embedding call (which runs before the
`try` block) propagates out of `vector_search` instead of yielding `[]`. -/
theorem c4_counterexample :
    vector_search (Except.error "embed failed") failSearch = Except.error "embed failed" ∧
    vector_search (Except.error "embed failed") failSearch ≠ Except.ok [] :=
  ⟨rfl, fun h => nomatch h⟩

/-- Case analysis of the per-document compression body: identity fields are
kept; the content is either untouched or replaced with the original saved; a
model failure or the sentinel keeps the content. -/
theorem compressOne_cases (llm : String → Except Unit String) (query : String) (d : Doc) :
    keepsIdentity d (compressOne llm query d) ∧
    ((compressOne llm query d).content = d.content ∨
      (compressOne llm query d).original_content = d.content) ∧
    (∀ c, d.content = some c → llm (compressPrompt query (pyTake 1500 c)) = Except.error () →
      (compressOne llm query d).content = some c) ∧
    (∀ c r, d.content = some c → llm (compressPrompt query (pyTake 1500 c)) = Except.ok r →
      r.trim = "NO_RELEVANT_INFO" → (compressOne llm query d).content = some c) := by
  cases hc : d.content with
  | none =>
      refine ⟨?_, ?_, ?_, ?_⟩
      · simp [compressOne, hc, keepsIdentity]
      · left
        simp [compressOne, hc]
      · intro c hcc _
        exact Option.noConfusion hcc
      · intro c r hcc _ _
        exact Option.noConfusion hcc
  | some content =>
      cases hl : llm (compressPrompt query (pyTake 1500 content)) with
      | error e =>
          refine ⟨?_, ?_, ?_, ?_⟩
          · simp [compressOne, hc, hl, keepsIdentity]
          · left
            simp [compressOne, hc, hl]
          · intro c hcc _
            cases hcc
            simp [compressOne, hc, hl]
          · intro c r hcc hll _
            cases hcc
            rw [hll] at hl
            exact Except.noConfusion hl
      | ok raw =>
          by_cases hif : raw.trim ≠ "NO_RELEVANT_INFO" ∧ 20 < raw.trim.length
          · refine ⟨?_, ?_, ?_, ?_⟩
            · simp [compressOne, hc, hl, hif, keepsIdentity]
            · right
              simp [compressOne, hc, hl, hif]
            · intro c hcc hll
              cases hcc
              rw [hll] at hl
              exact Except.noConfusion hl
            · intro c r hcc hll hsent
              cases hcc
              rw [hll] at hl
              cases hl
              exact absurd hsent hif.1
          · refine ⟨?_, ?_, ?_, ?_⟩
            · simp [compressOne, hc, hl, hif, keepsIdentity]
            · left
              simp [compressOne, hc, hl, hif]
            · intro c hcc hll
              cases hcc
              rw [hll] at hl
              exact Except.noConfusion hl
            · intro c r hcc hll hsent
              cases hcc
              rw [hll] at hl
              cases hl
              simp [compressOne, hc, hll, hif]

/-- C9: context compression returns a list of exactly the input length with the
documents in the same order (identity fields preserved position-wise); a
document is never dropped: its content is either left untouched or replaced
with the compressed text (the original being saved); in particular on a model
failure or on the no-relevant-info sentinel the original content is retained. -/
theorem c9_compress_preserves (iteration : Nat) (llm : String → Except Unit String)
    (query : String) (documents : List Doc) (_hne : documents ≠ []) :
    (compress_context iteration llm query documents).length = documents.length ∧
    (∀ i, i < documents.length →
      keepsIdentity (documents.getD i dfltDoc)
        ((compress_context iteration llm query documents).getD i dfltDoc)) ∧
    (∀ i, i < documents.length →
      ((compress_context iteration llm query documents).getD i dfltDoc).content =
          (documents.getD i dfltDoc).content ∨
        ((compress_context iteration llm query documents).getD i dfltDoc).original_content =
          (documents.getD i dfltDoc).content) ∧
    (∀ i c, i < documents.length → (documents.getD i dfltDoc).content = some c →
      llm (compressPrompt query (pyTake 1500 c)) = Except.error () →
      ((compress_context iteration llm query documents).getD i dfltDoc).content = some c) ∧
    (∀ i c r, i < documents.length → (documents.getD i dfltDoc).content = some c →
      llm (compressPrompt query (pyTake 1500 c)) = Except.ok r →
      r.trim = "NO_RELEVANT_INFO" →
      ((compress_context iteration llm query documents).getD i dfltDoc).content = some c) := by
  by_cases h : iteration < 4 ∨ documents = []
  · have hc : compress_context iteration llm query documents = documents := by
      simp [compress_context, h]
    rw [hc]
    exact ⟨rfl, fun i _ => ⟨rfl, rfl, rfl, rfl⟩, fun i _ => Or.inl rfl,
      fun i c _ hcc _ => hcc, fun i c r _ hcc _ _ => hcc⟩
  · have hc : compress_context iteration llm query documents =
        documents.map (compressOne llm query) := by
      simp [compress_context, h]
    rw [hc]
    refine ⟨List.length_map documents _, ?_, ?_, ?_, ?_⟩
    · intro i hi
      rw [getD_map_of_lt _ documents i dfltDoc dfltDoc hi]
      exact (compressOne_cases llm query (documents.getD i dfltDoc)).1
    · intro i hi
      rw [getD_map_of_lt _ documents i dfltDoc dfltDoc hi]
      exact (compressOne_cases llm query (documents.getD i dfltDoc)).2.1
    · intro i c hi hcc hll
      rw [getD_map_of_lt _ documents i dfltDoc dfltDoc hi]
      exact (compressOne_cases llm query (documents.getD i dfltDoc)).2.2.1 c hcc hll
    · intro i c r hi hcc hll hsent
      rw [getD_map_of_lt _ documents i dfltDoc dfltDoc hi]
      exact (compressOne_cases llm query (documents.getD i dfltDoc)).2.2.2 c r hcc hll hsent

/-- C9 witness: the compression contract at a concrete list and a failing model. -/
theorem c9_witness :
    (compress_context 4 failLlm "q" [docSimA, docSimB]).length = [docSimA, docSimB].length :=
  (c9_compress_preserves 4 failLlm "q" [docSimA, docSimB] (by decide)).1

/-- C7: for a query that contains a comparison keyword and from which at least
two banks of the configured vocabulary are extracted, decomposition yields
exactly one sub-query per extracted bank. -/
theorem c7_comparison_decomposition (iteration : Nat) (query : String)
    (hiter : 3 ≤ iteration)
    (hcmp : comparisonKeywords.any (fun k => strContainsSub (strLower query) k) = true)
    (hbanks : 2 ≤ (extract_metadata query).banks.length) :
    (decompose_query iteration query).1.length = (extract_metadata query).banks.length := by
  have hlt : ¬ iteration < 3 := by omega
  have e1 : decompose_query iteration query =
      (decompose_comparison query (extract_metadata query), extract_metadata query) := by
    simp [decompose_query, hlt, hcmp]
  rw [e1]
  have hmap : ((extract_metadata query).banks.map fun bank =>
      subBanksPattern (pyReplace query "compare" ("What is " ++ bank ++ apostrophe ++ "s"))
        bank).length = (extract_metadata query).banks.length :=
    List.length_map _ _
  have h1 : 1 < ((extract_metadata query).banks.map fun bank =>
      subBanksPattern (pyReplace query "compare" ("What is " ++ bank ++ apostrophe ++ "s"))
        bank).length := by
    rw [hmap]; omega
  show (decompose_comparison query (extract_metadata query)).length = _
  rw [decompose_comparison, if_pos hbanks]
  simp only [h1, if_pos]
  exact hmap

/-- C7 witness: a concrete comparison query over two banks decomposes into one
sub-query per extracted bank. -/
theorem c7_witness :
    (decompose_query 3 "compare Kaspi Bank and Halyk Bank").1.length =
      (extract_metadata "compare Kaspi Bank and Halyk Bank").banks.length :=
  c7_comparison_decomposition 3 "compare Kaspi Bank and Halyk Bank"
    (by decide) (by decide) (by decide)

/-- In-range `getD` is a member of the list. -/
theorem getD_mem_of_lt (l : List Doc) (i : Nat) (d : Doc) (h : i < l.length) :
    l.getD i d ∈ l := by
  rw [List.getD_eq_getElem?_getD, List.getElem?_eq_getElem h]
  exact List.getElem_mem h

/-- Clauses describing one min-max normalization pass of `hybrid_search`,
parametric in the raw-score reader. -/
theorem norm_clause_generic (f : Doc → Rat) (docs : List Doc) (i : Nat) (hi : i < docs.length)
    (out : List Doc)
    (hout : out = docs.map fun d =>
      { d with
          normalized_score := some (if 0 < maxScore (docs.map f) then f d / maxScore (docs.map f) else 0) }) :
    (0 < maxScore (docs.map f) →
      (0 ≤ f (docs.getD i dfltDoc) →
        0 ≤ normVal (out.getD i dfltDoc) ∧ normVal (out.getD i dfltDoc) ≤ 1) ∧
      (f (docs.getD i dfltDoc) = maxScore (docs.map f) → normVal (out.getD i dfltDoc) = 1) ∧
      (f (docs.getD i dfltDoc) = 0 → normVal (out.getD i dfltDoc) = 0) ∧
      (f (docs.getD i dfltDoc) < 0 → normVal (out.getD i dfltDoc) < 0)) ∧
    (maxScore (docs.map f) ≤ 0 → normVal (out.getD i dfltDoc) = 0) := by
  subst hout
  rw [getD_map_of_lt _ docs i dfltDoc dfltDoc hi]
  have hnorm : normVal { docs.getD i dfltDoc with
      normalized_score := some (if 0 < maxScore (docs.map f)
        then f (docs.getD i dfltDoc) / maxScore (docs.map f) else 0) } =
      (if 0 < maxScore (docs.map f) then f (docs.getD i dfltDoc) / maxScore (docs.map f) else 0) :=
    rfl
  rw [hnorm]
  constructor
  · intro hMpos
    rw [if_pos hMpos]
    refine ⟨?_, ?_, ?_, ?_⟩
    · intro hs0
      constructor
      · exact div_nonneg hs0 (le_of_lt hMpos)
      · have hle : f (docs.getD i dfltDoc) ≤ maxScore (docs.map f) :=
          le_maxScore (List.mem_map_of_mem f (getD_mem_of_lt docs i dfltDoc hi))
        exact div_le_one_of_le₀ hle (le_of_lt hMpos)
    · intro hsM
      rw [hsM]
      exact div_self (ne_of_gt hMpos)
    · intro h0
      rw [h0]
      exact zero_div _
    · intro hneg
      exact div_neg_of_neg_of_pos hneg hMpos
  · intro hMle
    rw [if_neg (not_lt.mpr hMle)]

/-- C1 (amended): inside hybrid fusion each retriever list is normalized by
dividing by the maximum raw score of that list when this maximum is positive —
then a record with nonnegative raw score gets a normalized score in [0,1], the
maximum-raw record gets exactly 1.0, a zero raw score maps to 0, but a record
with negative raw score gets a negative normalized score (not 0); and when the
maximum raw score is zero or negative, every record (the top one included) gets
normalized score 0 (not 1). -/
theorem c1_amended_normalization (docs : List Doc) (i : Nat) (hi : i < docs.length) :
    ((0 < maxScore (docs.map simVal) →
      (0 ≤ simVal (docs.getD i dfltDoc) →
        0 ≤ normVal ((normalizeVector docs).getD i dfltDoc) ∧
          normVal ((normalizeVector docs).getD i dfltDoc) ≤ 1) ∧
      (simVal (docs.getD i dfltDoc) = maxScore (docs.map simVal) →
        normVal ((normalizeVector docs).getD i dfltDoc) = 1) ∧
      (simVal (docs.getD i dfltDoc) = 0 →
        normVal ((normalizeVector docs).getD i dfltDoc) = 0) ∧
      (simVal (docs.getD i dfltDoc) < 0 →
        normVal ((normalizeVector docs).getD i dfltDoc) < 0)) ∧
    (maxScore (docs.map simVal) ≤ 0 →
      normVal ((normalizeVector docs).getD i dfltDoc) = 0)) ∧
    ((0 < maxScore (docs.map scoreVal) →
      (0 ≤ scoreVal (docs.getD i dfltDoc) →
        0 ≤ normVal ((normalizeBm25 docs).getD i dfltDoc) ∧
          normVal ((normalizeBm25 docs).getD i dfltDoc) ≤ 1) ∧
      (scoreVal (docs.getD i dfltDoc) = maxScore (docs.map scoreVal) →
        normVal ((normalizeBm25 docs).getD i dfltDoc) = 1) ∧
      (scoreVal (docs.getD i dfltDoc) = 0 →
        normVal ((normalizeBm25 docs).getD i dfltDoc) = 0) ∧
      (scoreVal (docs.getD i dfltDoc) < 0 →
        normVal ((normalizeBm25 docs).getD i dfltDoc) < 0)) ∧
    (maxScore (docs.map scoreVal) ≤ 0 →
      normVal ((normalizeBm25 docs).getD i dfltDoc) = 0)) :=
  ⟨norm_clause_generic simVal docs i hi (normalizeVector docs) rfl,
   norm_clause_generic scoreVal docs i hi (normalizeBm25 docs) rfl⟩

/-- C1 witness: on the concrete dense list with similarities 1 and -1, the
record with negative similarity receives a negative normalized score. -/
theorem c1_witness :
    normVal ((normalizeVector [docSimA, docSimB]).getD 1 dfltDoc) < 0 :=
  ((c1_amended_normalization [docSimA, docSimB] 1 (by decide)).1.1 (by decide)).2.2.2 (by decide)

unseal Rat.add Rat.mul Rat.inv Rat.sub in
/-- C1 counterexample: with both retriever lists non-empty (dense similarities
1 and -1), the fused output contains a candidate whose normalized score is -1:
a negative raw score is not mapped to 0 and the normalized score is outside
[0,1]. -/
theorem c1_counterexample :
    ((hybrid_search_fuse [docSimA, docSimB] [docBmC] 10 (1/2)).1.getD 2 dfltDoc).similarity =
        some (-1) ∧
    ((hybrid_search_fuse [docSimA, docSimB] [docBmC] 10 (1/2)).1.getD 2 dfltDoc).normalized_score =
        some (-1) ∧
    ¬ 0 ≤ normVal ((hybrid_search_fuse [docSimA, docSimB] [docBmC] 10 (1/2)).1.getD 2 dfltDoc) := by
  decide

theorem merged_updateRef (st : FuseState) (r : Ref) (f : Doc → Doc) :
    (updateRef st r f).merged = st.merged := by
  cases r <;> rfl

theorem dense_length_updateRef (st : FuseState) (r : Ref) (f : Doc → Doc) :
    (updateRef st r f).dense.length = st.dense.length := by
  cases r <;> simp [updateRef]

theorem sparse_length_updateRef (st : FuseState) (r : Ref) (f : Doc → Doc) :
    (updateRef st r f).sparse.length = st.sparse.length := by
  cases r <;> simp [updateRef]

theorem getD_set_self (l : List Doc) (i : Nat) (a : Doc) (h : i < l.length) :
    (l.set i a).getD i dfltDoc = a := by
  rw [List.getD_eq_getElem?_getD, List.getElem?_set_self h]
  rfl

theorem getD_set_ne (l : List Doc) (i j : Nat) (a : Doc) (h : i ≠ j) :
    (l.set i a).getD j dfltDoc = l.getD j dfltDoc := by
  rw [List.getD_eq_getElem?_getD, List.getElem?_set_ne h, List.getD_eq_getElem?_getD]

theorem getRef_updateRef_self (st : FuseState) (r : Ref) (f : Doc → Doc)
    (hv : refValid st r) : getRef (updateRef st r f) r = f (getRef st r) := by
  cases r with
  | dense i => exact getD_set_self st.dense i _ hv
  | sparse i => exact getD_set_self st.sparse i _ hv

theorem getRef_updateRef_ne (st : FuseState) (r r2 : Ref) (f : Doc → Doc)
    (h : r2 ≠ r) : getRef (updateRef st r f) r2 = getRef st r2 := by
  cases r with
  | dense i =>
      cases r2 with
      | dense i2 =>
          have : i ≠ i2 := fun he => h (by rw [he])
          exact getD_set_ne st.dense i i2 _ this
      | sparse i2 => rfl
  | sparse i =>
      cases r2 with
      | dense i2 => rfl
      | sparse i2 =>
          have : i ≠ i2 := fun he => h (by rw [he])
          exact getD_set_ne st.sparse i i2 _ this

theorem docKey_addSparse (alpha : Rat) (d m : Doc) : docKey (addSparse alpha d m) = docKey m :=
  rfl

theorem docKey_setDenseHybrid (alpha : Rat) (d : Doc) : docKey (setDenseHybrid alpha d) = docKey d :=
  rfl

theorem keyListOf_normalizeVector (docs : List Doc) :
    keyListOf (normalizeVector docs) = keyListOf docs := by
  simp only [keyListOf, normalizeVector, List.map_map]
  exact List.map_congr_left fun d _ => rfl

theorem keyListOf_normalizeBm25 (docs : List Doc) :
    keyListOf (normalizeBm25 docs) = keyListOf docs := by
  simp only [keyListOf, normalizeBm25, List.map_map]
  exact List.map_congr_left fun d _ => rfl

theorem lookup_mem_pairs {m : List (String × Ref)} {k : String} {r : Ref}
    (h : m.lookup k = some r) : (k, r) ∈ m := by
  induction m with
  | nil => cases h
  | cons e rest ih =>
      rw [List.lookup] at h
      by_cases he : k = e.1
      · simp [he] at h
        subst h
        subst he
        exact List.mem_cons_self _ _
      · have : (k == e.1) = false := beq_eq_false_iff_ne.mpr he
        rw [this] at h
        exact List.mem_cons_of_mem _ (ih h)

theorem lookup_isSome_iff_mem {m : List (String × Ref)} {k : String} :
    (m.lookup k).isSome = true ↔ k ∈ m.map Prod.fst := by
  induction m with
  | nil => simp [List.lookup]
  | cons e rest ih =>
      rw [List.lookup]
      by_cases he : k = e.1
      · simp [he]
      · have hb : (k == e.1) = false := beq_eq_false_iff_ne.mpr he
        rw [hb]
        simp [he, ih]

theorem lookup_eq_none_iff {m : List (String × Ref)} {k : String} :
    m.lookup k = none ↔ ¬ k ∈ m.map Prod.fst := by
  rw [← lookup_isSome_iff_mem]
  cases h : m.lookup k <;> simp

theorem lookup_append_some {m l : List (String × Ref)} {k : String} {r : Ref}
    (h : m.lookup k = some r) : (m ++ l).lookup k = some r := by
  induction m with
  | nil => cases h
  | cons e rest ih =>
      rw [List.lookup] at h
      rw [List.cons_append, List.lookup]
      cases hb : (k == e.1) with
      | true => rw [hb] at h; exact h
      | false => rw [hb] at h; exact ih h

theorem lookup_append_none {m l : List (String × Ref)} {k : String}
    (h : m.lookup k = none) : (m ++ l).lookup k = l.lookup k := by
  induction m with
  | nil => rfl
  | cons e rest ih =>
      rw [List.lookup] at h
      rw [List.cons_append, List.lookup]
      cases hb : (k == e.1) with
      | true => rw [hb] at h; cases h
      | false => rw [hb] at h; exact ih h

theorem lookup_of_mem_nodup {m : List (String × Ref)} {e : String × Ref}
    (hnd : (m.map Prod.fst).Nodup) (hm : e ∈ m) : m.lookup e.1 = some e.2 := by
  induction m with
  | nil => cases hm
  | cons e2 rest ih =>
      rcases List.mem_cons.mp hm with h | h
      · subst h
        rw [List.lookup, beq_self_eq_true]
      · rw [List.map_cons, List.nodup_cons] at hnd
        have hne : e.1 ≠ e2.1 := by
          intro hk
          exact hnd.1 (hk ▸ List.mem_map_of_mem Prod.fst h)
        rw [List.lookup, beq_eq_false_iff_ne.mpr hne]
        exact ih hnd.2 h

theorem map_fst_upsertKey (k : String) (r : Ref) (m : List (String × Ref)) :
    (upsertKey k r m).map Prod.fst =
      if k ∈ m.map Prod.fst then m.map Prod.fst else m.map Prod.fst ++ [k] := by
  induction m with
  | nil => simp [upsertKey]
  | cons e rest ih =>
      rw [upsertKey]
      by_cases he : e.1 = k
      · rw [if_pos he]
        simp [he]
      · rw [if_neg he]
        have hne : ¬ k = e.1 := fun h => he h.symm
        by_cases hk : k ∈ rest.map Prod.fst
        · simp [hk, hne, ih]
        · simp [hk, hne, ih]

theorem nodup_upsertKey (k : String) (r : Ref) (m : List (String × Ref))
    (hnd : (m.map Prod.fst).Nodup) : ((upsertKey k r m).map Prod.fst).Nodup := by
  rw [map_fst_upsertKey]
  by_cases hk : k ∈ m.map Prod.fst
  · rwa [if_pos hk]
  · rw [if_neg hk]
    simp [List.nodup_append, hnd, hk]

theorem mem_upsertKey {k : String} {r : Ref} {m : List (String × Ref)} {e : String × Ref}
    (h : e ∈ upsertKey k r m) : e = (k, r) ∨ e ∈ m := by
  induction m with
  | nil =>
      rw [upsertKey] at h
      rcases List.mem_singleton.mp h with h2
      exact Or.inl h2
  | cons e2 rest ih =>
      rw [upsertKey] at h
      by_cases he : e2.1 = k
      · rw [if_pos he] at h
        rcases List.mem_cons.mp h with h2 | h2
        · exact Or.inl h2
        · exact Or.inr (List.mem_cons_of_mem _ h2)
      · rw [if_neg he] at h
        rcases List.mem_cons.mp h with h2 | h2
        · exact Or.inr (h2 ▸ List.mem_cons_self _ _)
        · rcases ih h2 with h3 | h3
          · exact Or.inl h3
          · exact Or.inr (List.mem_cons_of_mem _ h3)

theorem lookup_upsertKey_self (k : String) (r : Ref) (m : List (String × Ref)) :
    (upsertKey k r m).lookup k = some r := by
  induction m with
  | nil => simp [upsertKey, List.lookup]
  | cons e rest ih =>
      rw [upsertKey]
      by_cases he : e.1 = k
      · rw [if_pos he, List.lookup, beq_self_eq_true]
      · have hne : ¬ k = e.1 := fun h => he h.symm
        rw [if_neg he, List.lookup, beq_eq_false_iff_ne.mpr hne]
        exact ih

theorem lookup_upsertKey_ne (k k2 : String) (r : Ref) (m : List (String × Ref))
    (h : k2 ≠ k) : (upsertKey k r m).lookup k2 = m.lookup k2 := by
  induction m with
  | nil => simp [upsertKey, List.lookup, beq_eq_false_iff_ne.mpr h]
  | cons e rest ih =>
      rw [upsertKey]
      by_cases he : e.1 = k
      · rw [if_pos he, List.lookup, List.lookup, beq_eq_false_iff_ne.mpr (he ▸ h), he,
          beq_eq_false_iff_ne.mpr h]
      · rw [if_neg he, List.lookup, List.lookup]
        cases hb : (k2 == e.1) with
        | true => rfl
        | false => exact ih

theorem lookup_seedMerged (docs : List Doc) :
    ∀ (m : List (String × Ref)) (i : Nat) (k : String),
      (seedMerged m i docs).lookup k =
        match lastKeyIdx k docs with
        | some j => some (Ref.dense (i + j))
        | none => m.lookup k := by
  induction docs with
  | nil => intro m i k; rfl
  | cons d rest ih =>
      intro m i k
      rw [seedMerged, ih]
      rw [lastKeyIdx]
      cases hl : lastKeyIdx k rest with
      | some j =>
          simp only []
          congr 1
          congr 1
          omega
      | none =>
          simp only []
          by_cases he : docKey d = k
          · rw [if_pos he, he, lookup_upsertKey_self]
            simp
          · rw [if_neg he, lookup_upsertKey_ne _ _ _ _ (fun h2 => he h2.symm)]

theorem mem_seedMerged {docs : List Doc} :
    ∀ {m : List (String × Ref)} {i : Nat} {e : String × Ref}, e ∈ seedMerged m i docs →
      e ∈ m ∨ ∃ jj, jj < docs.length ∧ e = (docKey (docs.getD jj dfltDoc), Ref.dense (i + jj)) := by
  induction docs with
  | nil => intro m i e h; exact Or.inl h
  | cons d rest ih =>
      intro m i e h
      rw [seedMerged] at h
      rcases ih h with h2 | ⟨jj, hjj, he⟩
      · rcases mem_upsertKey h2 with h3 | h3
        · refine Or.inr ⟨0, by simp, ?_⟩
          simpa using h3
        · exact Or.inl h3
      · refine Or.inr ⟨jj + 1, by simpa using hjj, ?_⟩
        rw [he]
        have : (d :: rest).getD (jj + 1) dfltDoc = rest.getD jj dfltDoc := rfl
        rw [this]
        congr 2
        omega

theorem nodup_seedMerged (docs : List Doc) :
    ∀ (m : List (String × Ref)) (i : Nat), (m.map Prod.fst).Nodup →
      ((seedMerged m i docs).map Prod.fst).Nodup := by
  induction docs with
  | nil => intro m i h; exact h
  | cons d rest ih =>
      intro m i h
      rw [seedMerged]
      exact ih _ _ (nodup_upsertKey _ _ _ h)

theorem lastKeyIdx_isSome_iff {k : String} {docs : List Doc} :
    (lastKeyIdx k docs).isSome = true ↔ k ∈ keyListOf docs := by
  induction docs with
  | nil => simp [lastKeyIdx, keyListOf]
  | cons d rest ih =>
      rw [lastKeyIdx]
      cases hl : lastKeyIdx k rest with
      | some j =>
          simp only [Option.isSome_some, true_iff]
          rw [keyListOf, List.map_cons]
          exact List.mem_cons_of_mem _ (ih.mp (by rw [hl]; rfl))
      | none =>
          rw [hl] at ih
          simp only [keyListOf, List.map_cons, List.mem_cons]
          by_cases he : docKey d = k
          · simp [he]
          · simp only [if_neg he, Option.isSome_none]
            constructor
            · intro hf; cases hf
            · intro hmem
              rcases hmem with h2 | h2
              · exact absurd h2.symm he
              · have := ih.mpr h2
                cases this

theorem lastKeyIdx_lt {k : String} {docs : List Doc} {j : Nat}
    (h : lastKeyIdx k docs = some j) : j < docs.length := by
  induction docs generalizing j with
  | nil => cases h
  | cons d rest ih =>
      rw [lastKeyIdx] at h
      cases hl : lastKeyIdx k rest with
      | some j2 =>
          rw [hl] at h
          cases h
          have := ih hl
          simpa using Nat.succ_lt_succ this
      | none =>
          rw [hl] at h
          by_cases he : docKey d = k
          · rw [if_pos he] at h
            cases h
            simp
          · rw [if_neg he] at h
            cases h

theorem lastKeyIdx_getD_key {k : String} {docs : List Doc} {j : Nat}
    (h : lastKeyIdx k docs = some j) : docKey (docs.getD j dfltDoc) = k := by
  induction docs generalizing j with
  | nil => cases h
  | cons d rest ih =>
      rw [lastKeyIdx] at h
      cases hl : lastKeyIdx k rest with
      | some j2 =>
          rw [hl] at h
          cases h
          exact ih hl
      | none =>
          rw [hl] at h
          by_cases he : docKey d = k
          · rw [if_pos he] at h
            cases h
            exact he
          · rw [if_neg he] at h
            cases h

theorem normAt_eq_zero_of_not_mem {docs : List Doc} {k : String}
    (h : ¬ k ∈ keyListOf docs) : normAt docs k = 0 := by
  rw [normAt]
  have : docs.find? (fun d => docKey d = k) = none := by
    rw [List.find?_eq_none]
    intro x hx
    simp only [decide_eq_true_eq]
    intro hk
    exact h (hk ▸ List.mem_map_of_mem docKey hx)
  rw [this]

theorem filter_key_of_nodup {docs : List Doc} {k : String}
    (hnd : (keyListOf docs).Nodup) :
    docs.filter (fun d => decide (docKey d = k)) =
      match docs.find? (fun d => decide (docKey d = k)) with
      | some x => [x]
      | none => [] := by
  induction docs with
  | nil => rfl
  | cons d rest ih =>
      rw [keyListOf, List.map_cons, List.nodup_cons] at hnd
      by_cases he : docKey d = k
      · rw [List.filter_cons_of_pos (by simpa using he), List.find?_cons_of_pos _ (by simpa using he)]
        have hempty : rest.filter (fun d2 => decide (docKey d2 = k)) = [] := by
          rw [List.filter_eq_nil_iff]
          intro x hx
          simp only [decide_eq_true_eq]
          intro hk
          exact hnd.1 (he ▸ hk ▸ List.mem_map_of_mem docKey hx)
        rw [hempty]
      · rw [List.filter_cons_of_neg (by simpa using he), List.find?_cons_of_neg _ (by simpa using he)]
        exact ih hnd.2

theorem normAt_getD_of_nodup {docs : List Doc} :
    ∀ {jj : Nat}, (keyListOf docs).Nodup → jj < docs.length →
      normAt docs (docKey (docs.getD jj dfltDoc)) = normVal (docs.getD jj dfltDoc) := by
  induction docs with
  | nil => intro jj _ h; cases h
  | cons d rest ih =>
      intro jj hnd hjj
      rw [keyListOf, List.map_cons, List.nodup_cons] at hnd
      cases jj with
      | zero =>
          have h0 : (d :: rest).getD 0 dfltDoc = d := rfl
          rw [h0, normAt, List.find?_cons_of_pos _ (by simp)]
      | succ jj2 =>
          have hs : (d :: rest).getD (jj2 + 1) dfltDoc = rest.getD jj2 dfltDoc := rfl
          rw [hs]
          have hjj2 : jj2 < rest.length := by simpa using hjj
          have hne : ¬ docKey d = docKey (rest.getD jj2 dfltDoc) := by
            intro hk
            exact hnd.1 (hk ▸ List.mem_map_of_mem docKey (getD_mem_of_lt rest jj2 dfltDoc hjj2))
          rw [normAt, List.find?_cons_of_neg _ (by simpa using hne)]
          rw [← normAt]
          exact ih hnd.2 hjj2

theorem refValid_of_lengths {st st2 : FuseState} {r : Ref}
    (hd : st2.dense.length = st.dense.length) (hs : st2.sparse.length = st.sparse.length)
    (h : refValid st r) : refValid st2 r := by
  cases r with
  | dense i => simpa [refValid, hd] using h
  | sparse i => simpa [refValid, hs] using h

theorem mergeStep_hit {alpha : Rat} {d : Doc} {j : Nat} {st : FuseState} {r : Ref}
    (h : st.merged.lookup (docKey d) = some r) :
    mergeStep alpha d j st = updateRef st r (addSparse alpha d) := by
  rw [mergeStep, h]

theorem mergeStep_miss {alpha : Rat} {d : Doc} {j : Nat} {st : FuseState}
    (h : st.merged.lookup (docKey d) = none) :
    mergeStep alpha d j st =
      { st with
        sparse := st.sparse.set j { d with hybrid_score := some ((1 - alpha) * normVal d) },
        merged := st.merged ++ [(docKey d, Ref.sparse j)] } := by
  rw [mergeStep, h]

theorem mergeStep_preserves (alpha : Rat) (d : Doc) (j : Nat) (st : FuseState)
    (hinv : StInv st) (hsp : SparseIdxLt st j) (hj : j < st.sparse.length) :
    StInv (mergeStep alpha d j st) ∧ SparseIdxLt (mergeStep alpha d j st) (j + 1) ∧
    (mergeStep alpha d j st).dense.length = st.dense.length ∧
    (mergeStep alpha d j st).sparse.length = st.sparse.length ∧
    (DenseThenSparse st → DenseThenSparse (mergeStep alpha d j st)) ∧
    (∀ k r, st.merged.lookup k = some r → (mergeStep alpha d j st).merged.lookup k = some r) := by
  cases hl : st.merged.lookup (docKey d) with
  | some r0 =>
      rw [mergeStep_hit hl]
      have hmem0 : (docKey d, r0) ∈ st.merged := lookup_mem_pairs hl
      have hv0 : refValid st r0 := (hinv.1 _ hmem0).1
      have hld : (updateRef st r0 (addSparse alpha d)).dense.length = st.dense.length :=
        dense_length_updateRef st r0 _
      have hls : (updateRef st r0 (addSparse alpha d)).sparse.length = st.sparse.length :=
        sparse_length_updateRef st r0 _
      have hm : (updateRef st r0 (addSparse alpha d)).merged = st.merged :=
        merged_updateRef st r0 _
      refine ⟨⟨?_, ?_⟩, ?_, hld, hls, ?_, ?_⟩
      · intro e he
        rw [hm] at he
        refine ⟨refValid_of_lengths hld hls (hinv.1 e he).1, ?_⟩
        by_cases her : e.2 = r0
        · rw [her, getRef_updateRef_self st r0 _ hv0, docKey_addSparse]
          rw [← her]
          exact (hinv.1 e he).2
        · rw [getRef_updateRef_ne st r0 e.2 _ her]
          exact (hinv.1 e he).2
      · rw [hm]
        exact hinv.2
      · intro e he i hei
        rw [hm] at he
        exact Nat.lt_succ_of_lt (hsp e he i hei)
      · intro hdts
        obtain ⟨D, S, hDS, hD, hS⟩ := hdts
        exact ⟨D, S, by rw [hm, hDS], hD, hS⟩
      · intro k r h
        rw [hm]
        exact h
  | none =>
      rw [mergeStep_miss hl]
      have hknotin : ¬ docKey d ∈ st.merged.map Prod.fst := lookup_eq_none_iff.mp hl
      refine ⟨⟨?_, ?_⟩, ?_, rfl, by simp, ?_, ?_⟩
      · intro e he
        rcases List.mem_append.mp he with hold | hnew
        · obtain ⟨hval, hkey⟩ := hinv.1 e hold
          cases hre : e.2 with
          | dense i =>
              rw [hre] at hval hkey
              constructor
              · simpa [refValid] using hval
              · simp only [getRef] at hkey ⊢
                exact hkey
          | sparse i =>
              rw [hre] at hval hkey
              have hij : i < j := hsp e hold i hre
              constructor
              · have h2 : i < st.sparse.length := by simpa [refValid] using hval
                simpa [refValid, List.length_set] using h2
              · simp only [getRef] at hkey ⊢
                rw [getD_set_ne st.sparse j i _ (by omega)]
                exact hkey
        · have he2 : e = (docKey d, Ref.sparse j) := List.mem_singleton.mp hnew
          subst he2
          constructor
          · simpa [refValid, List.length_set] using hj
          · simp only [getRef]
            rw [getD_set_self st.sparse j _ hj]
            rfl
      · rw [List.map_append]
        simp only [List.map_cons, List.map_nil]
        rw [List.nodup_append]
        exact ⟨hinv.2, List.nodup_singleton _, by simpa using hknotin⟩
      · intro e he i hei
        rcases List.mem_append.mp he with hold | hnew
        · exact Nat.lt_succ_of_lt (hsp e hold i hei)
        · have he2 : e = (docKey d, Ref.sparse j) := List.mem_singleton.mp hnew
          subst he2
          cases hei
          omega
      · intro hdts
        obtain ⟨D, S, hDS, hD, hS⟩ := hdts
        refine ⟨D, S ++ [(docKey d, Ref.sparse j)], ?_, hD, ?_⟩
        · rw [hDS, List.append_assoc]
        · intro e he
          rcases List.mem_append.mp he with h2 | h2
          · exact hS e h2
          · have he2 : e = (docKey d, Ref.sparse j) := List.mem_singleton.mp h2
            subst he2
            rfl
      · intro k r h
        exact lookup_append_some h

theorem mergeLoop_preserves (alpha : Rat) : ∀ (rest : List Doc) (j : Nat) (st : FuseState),
    StInv st → SparseIdxLt st j → j + rest.length ≤ st.sparse.length →
    StInv (mergeSparseLoop alpha rest j st) ∧
    (mergeSparseLoop alpha rest j st).dense.length = st.dense.length ∧
    (mergeSparseLoop alpha rest j st).sparse.length = st.sparse.length ∧
    (DenseThenSparse st → DenseThenSparse (mergeSparseLoop alpha rest j st)) ∧
    (∀ k r, st.merged.lookup k = some r →
      (mergeSparseLoop alpha rest j st).merged.lookup k = some r) := by
  intro rest
  induction rest with
  | nil =>
      intro j st hinv hsp _
      exact ⟨hinv, rfl, rfl, fun h => h, fun k r h => h⟩
  | cons d rest2 ih =>
      intro j st hinv hsp hlen
      have hj : j < st.sparse.length := by
        simp only [List.length_cons] at hlen
        omega
      obtain ⟨hinv2, hsp2, hld, hls, hdts2, hlk2⟩ := mergeStep_preserves alpha d j st hinv hsp hj
      have hlen2 : (j + 1) + rest2.length ≤ (mergeStep alpha d j st).sparse.length := by
        rw [hls]
        simp only [List.length_cons] at hlen
        omega
      obtain ⟨hinv3, hld3, hls3, hdts3, hlk3⟩ := ih (j + 1) (mergeStep alpha d j st) hinv2 hsp2 hlen2
      rw [mergeSparseLoop]
      exact ⟨hinv3, by rw [hld3, hld], by rw [hls3, hls], fun h => hdts3 (hdts2 h),
        fun k r h => hlk3 k r (hlk2 k r h)⟩

theorem mergeLoop_ref_fold (alpha : Rat) : ∀ (rest : List Doc) (j : Nat) (st : FuseState)
    (k : String) (r : Ref), StInv st → SparseIdxLt st j → j + rest.length ≤ st.sparse.length →
    st.merged.lookup k = some r →
    getRef (mergeSparseLoop alpha rest j st) r =
      (rest.filter fun d2 => decide (docKey d2 = k)).foldl (fun m d2 => addSparse alpha d2 m)
        (getRef st r) := by
  intro rest
  induction rest with
  | nil => intro j st k r _ _ _ _; rfl
  | cons d rest2 ih =>
      intro j st k r hinv hsp hlen hlk
      have hj : j < st.sparse.length := by
        simp only [List.length_cons] at hlen
        omega
      obtain ⟨hinv2, hsp2, hld, hls, _, hlkpres⟩ := mergeStep_preserves alpha d j st hinv hsp hj
      have hlen2 : (j + 1) + rest2.length ≤ (mergeStep alpha d j st).sparse.length := by
        rw [hls]
        simp only [List.length_cons] at hlen
        omega
      rw [mergeSparseLoop]
      by_cases hkd : docKey d = k
      · have hl2 : st.merged.lookup (docKey d) = some r := by rw [hkd]; exact hlk
        have hmem : (k, r) ∈ st.merged := lookup_mem_pairs hlk
        have hrv : refValid st r := (hinv.1 _ hmem).1
        have hstep : mergeStep alpha d j st = updateRef st r (addSparse alpha d) :=
          mergeStep_hit hl2
        have hlk2 : (mergeStep alpha d j st).merged.lookup k = some r := by
          rw [hstep, merged_updateRef]
          exact hlk
        rw [List.filter_cons_of_pos (by simpa using hkd), List.foldl_cons]
        rw [ih (j + 1) _ k r hinv2 hsp2 hlen2 hlk2]
        congr 1
        rw [hstep, getRef_updateRef_self st r _ hrv]
      · have hg2 : getRef (mergeStep alpha d j st) r = getRef st r := by
          cases hl2 : st.merged.lookup (docKey d) with
          | some r0 =>
              have hne : r ≠ r0 := by
                intro hrr
                have hmem0 : (docKey d, r0) ∈ st.merged := lookup_mem_pairs hl2
                have hmem : (k, r) ∈ st.merged := lookup_mem_pairs hlk
                have h1 := (hinv.1 _ hmem0).2
                have h2 := (hinv.1 _ hmem).2
                rw [← hrr] at h1
                exact hkd (h1.symm.trans h2)
              rw [mergeStep_hit hl2, getRef_updateRef_ne st r0 r _ hne]
          | none =>
              rw [mergeStep_miss hl2]
              cases hr : r with
              | dense i => rfl
              | sparse i =>
                  have hmem : (k, r) ∈ st.merged := lookup_mem_pairs hlk
                  have hij : i < j := hsp _ hmem i hr
                  simp only [getRef]
                  rw [getD_set_ne st.sparse j i _ (by omega)]
        have hlk2 : (mergeStep alpha d j st).merged.lookup k = some r := hlkpres k r hlk
        rw [List.filter_cons_of_neg (by simpa using hkd)]
        rw [ih (j + 1) _ k r hinv2 hsp2 hlen2 hlk2, hg2]

theorem mergeLoop_mem_char (alpha : Rat) : ∀ (rest : List Doc) (j : Nat) (st : FuseState),
    StInv st → SparseIdxLt st j → j + rest.length ≤ st.sparse.length →
    ∀ e ∈ (mergeSparseLoop alpha rest j st).merged,
      e ∈ st.merged ∨
      (¬ e.1 ∈ st.merged.map Prod.fst ∧
        ∃ jj, jj < rest.length ∧ e.1 = docKey (rest.getD jj dfltDoc) ∧
          e.2 = Ref.sparse (j + jj) ∧
          getRef (mergeSparseLoop alpha rest j st) e.2 =
            ((rest.drop (jj + 1)).filter fun d2 => decide (docKey d2 = e.1)).foldl
              (fun m d2 => addSparse alpha d2 m)
              { rest.getD jj dfltDoc with
                  hybrid_score := some ((1 - alpha) * normVal (rest.getD jj dfltDoc)) }) := by
  intro rest
  induction rest with
  | nil => intro j st _ _ _ e he; exact Or.inl he
  | cons d rest2 ih =>
      intro j st hinv hsp hlen e he
      have hj : j < st.sparse.length := by
        simp only [List.length_cons] at hlen
        omega
      obtain ⟨hinv2, hsp2, hld, hls, _, hlkpres⟩ := mergeStep_preserves alpha d j st hinv hsp hj
      have hlen2 : (j + 1) + rest2.length ≤ (mergeStep alpha d j st).sparse.length := by
        rw [hls]
        simp only [List.length_cons] at hlen
        omega
      rw [mergeSparseLoop] at he
      have hstate : mergeSparseLoop alpha (d :: rest2) j st =
          mergeSparseLoop alpha rest2 (j + 1) (mergeStep alpha d j st) := rfl
      rcases ih (j + 1) (mergeStep alpha d j st) hinv2 hsp2 hlen2 e he with h2 | ⟨hnotin2, jj, hjj, he1, he2, hval⟩
      · cases hl2 : st.merged.lookup (docKey d) with
        | some r0 =>
            rw [mergeStep_hit hl2, merged_updateRef] at h2
            exact Or.inl h2
        | none =>
            rw [mergeStep_miss hl2] at h2
            simp only [] at h2
            rcases List.mem_append.mp h2 with hold | hnew
            · exact Or.inl hold
            · have he2 : e = (docKey d, Ref.sparse j) := List.mem_singleton.mp hnew
              subst he2
              right
              refine ⟨by simpa using lookup_eq_none_iff.mp hl2, 0, by simp, by simp, by simp, ?_⟩
              have hlknew : (mergeStep alpha d j st).merged.lookup (docKey d) =
                  some (Ref.sparse j) := by
                rw [mergeStep_miss hl2]
                simp only []
                rw [lookup_append_none hl2, List.lookup, beq_self_eq_true]
              have hfold := mergeLoop_ref_fold alpha rest2 (j + 1) (mergeStep alpha d j st)
                (docKey d) (Ref.sparse j) hinv2 hsp2 hlen2 hlknew
              rw [hstate, hfold]
              congr 1
              rw [mergeStep_miss hl2]
              simp only [getRef]
              exact getD_set_self st.sparse j _ hj
      · right
        have hnotin : ¬ e.1 ∈ st.merged.map Prod.fst := by
          intro hmem
          apply hnotin2
          cases hl2 : st.merged.lookup (docKey d) with
          | some r0 =>
              rw [mergeStep_hit hl2, merged_updateRef]
              exact hmem
          | none =>
              rw [mergeStep_miss hl2]
              simp only [List.map_append]
              exact List.mem_append_left _ hmem
        refine ⟨hnotin, jj + 1, by simpa using hjj, ?_, ?_, ?_⟩
        · simpa using he1
        · rw [he2]
          congr 1
          omega
        · rw [hstate]
          have hd1 : (d :: rest2).getD (jj + 1) dfltDoc = rest2.getD jj dfltDoc := rfl
          have hd2 : (d :: rest2).drop (jj + 1 + 1) = rest2.drop (jj + 1) := rfl
          rw [hd2]
          exact hval

theorem seedState_invariants (vr br : List Doc) (alpha : Rat) :
    StInv (seedState vr br alpha) ∧ SparseIdxLt (seedState vr br alpha) 0 ∧
    DenseThenSparse (seedState vr br alpha) := by
  rw [seedState]
  refine ⟨⟨?_, ?_⟩, ?_, ?_⟩
  · intro e he
    rcases mem_seedMerged he with h | ⟨jj, hjj, hejj⟩
    · cases h
    · subst hejj
      simp only [Nat.zero_add]
      constructor
      · simpa [refValid, List.length_map] using hjj
      · simp only [getRef]
        rw [getD_map_of_lt (setDenseHybrid alpha) (normalizeVector vr) jj dfltDoc dfltDoc hjj]
        exact docKey_setDenseHybrid alpha _
  · exact nodup_seedMerged (normalizeVector vr) [] 0 (by simp)
  · intro e he i hei
    rcases mem_seedMerged he with h | ⟨jj, hjj, hejj⟩
    · cases h
    · subst hejj
      cases hei
  · refine ⟨seedMerged [] 0 (normalizeVector vr), [], by simp, ?_, by simp⟩
    intro e he
    rcases mem_seedMerged he with h | ⟨jj, hjj, hejj⟩
    · cases h
    · subst hejj
      rfl

theorem fuseState_eq (vr br : List Doc) (alpha : Rat) :
    fuseState vr br alpha =
      mergeSparseLoop alpha (normalizeBm25 br) 0 (seedState vr br alpha) := rfl

theorem fuseState_invariants (vr br : List Doc) (alpha : Rat) :
    StInv (fuseState vr br alpha) ∧
    (fuseState vr br alpha).dense.length = vr.length ∧
    (fuseState vr br alpha).sparse.length = br.length ∧
    DenseThenSparse (fuseState vr br alpha) := by
  obtain ⟨hinv, hsp, hdts⟩ := seedState_invariants vr br alpha
  have hloop := mergeLoop_preserves alpha (normalizeBm25 br) 0
    (seedState vr br alpha) hinv hsp (by simp [seedState])
  rw [fuseState_eq]
  refine ⟨hloop.1, ?_, ?_, hloop.2.2.2.1 hdts⟩
  · rw [hloop.2.1]
    simp [seedState, normalizeVector, List.length_map]
  · rw [hloop.2.2.1]
    simp [seedState, normalizeBm25, List.length_map]

theorem hybrid_search_fuse_nonempty (dense sparse : List Doc) (top_k : Nat) (alpha : Rat)
    (hd : dense ≠ []) (hs : sparse ≠ []) :
    hybrid_search_fuse dense sparse top_k alpha =
      ((sortDesc (mergedValues (fuseState dense sparse alpha))).take top_k,
        (fuseState dense sparse alpha).dense, (fuseState dense sparse alpha).sparse) := by
  simp [hybrid_search_fuse, hd, hs]

theorem map_docKey_mergedValues (st : FuseState) (hinv : StInv st) :
    (mergedValues st).map docKey = st.merged.map Prod.fst := by
  unfold mergedValues
  rw [List.map_map]
  exact List.map_congr_left fun e he => (hinv.1 e he).2

theorem docKey_eq_of_sameIdentity {a b : Doc} (h : sameIdentity a b) : docKey a = docKey b := by
  obtain ⟨h1, h2, h3, h4⟩ := h
  rw [docKey, docKey, h1, h2, h3, h4]

theorem sortDesc_perm (l : List Doc) : (sortDesc l).Perm l :=
  List.perm_insertionSort hybridGe l

theorem sortDesc_sorted (l : List Doc) : (sortDesc l).Sorted hybridGe :=
  List.sorted_insertionSort hybridGe l

/-- C2 (amended): the fused output contains at most one candidate per identity
key; a sparse record whose key is already in the merge map adds its weighted
normalized score to the existing entry and creates no new entry; a dense record
whose key was already seeded replaces the earlier entry in place (the earlier
contribution of the earlier record is discarded, not added). -/
theorem c2_amended_dedup (dense sparse : List Doc) (top_k : Nat) (alpha : Rat) :
    (dense ≠ [] → sparse ≠ [] →
      ((hybrid_search_fuse dense sparse top_k alpha).1).Pairwise
        (fun a b => ¬ sameIdentity a b)) ∧
    (∀ (d : Doc) (j : Nat) (st : FuseState) (r : Ref),
      st.merged.lookup (docKey d) = some r → refValid st r →
      (mergeStep alpha d j st).merged = st.merged ∧
      hybridVal (getRef (mergeStep alpha d j st) r) =
        hybridVal (getRef st r) + (1 - alpha) * normVal d ∧
      (getRef (mergeStep alpha d j st) r).source = "hybrid") ∧
    (∀ (k : String) (r : Ref) (m : List (String × Ref)), k ∈ m.map Prod.fst →
      (upsertKey k r m).map Prod.fst = m.map Prod.fst ∧
      (upsertKey k r m).lookup k = some r) := by
  refine ⟨?_, ?_, ?_⟩
  · intro hd hs
    rw [hybrid_search_fuse_nonempty dense sparse top_k alpha hd hs]
    obtain ⟨hinv, _, _, _⟩ := fuseState_invariants dense sparse alpha
    have h1 : ((mergedValues (fuseState dense sparse alpha)).map docKey).Nodup := by
      rw [map_docKey_mergedValues _ hinv]
      exact hinv.2
    have h2 : (mergedValues (fuseState dense sparse alpha)).Pairwise
        (fun a b => docKey a ≠ docKey b) := by
      rw [List.Nodup, List.pairwise_map] at h1
      exact h1
    have h3 : (sortDesc (mergedValues (fuseState dense sparse alpha))).Pairwise
        (fun a b => docKey a ≠ docKey b) :=
      ((sortDesc_perm _).pairwise_iff fun h he => h he.symm).mpr h2
    have h4 := List.Pairwise.sublist (List.take_sublist top_k _) h3
    exact h4.imp fun h hsame => h (docKey_eq_of_sameIdentity hsame)
  · intro d j st r hlk hrv
    rw [mergeStep_hit hlk, merged_updateRef, getRef_updateRef_self st r _ hrv]
    exact ⟨rfl, rfl, rfl⟩
  · intro k r m hk
    refine ⟨?_, lookup_upsertKey_self k r m⟩
    rw [map_fst_upsertKey, if_pos hk]

/-- C2 witness: dedup and both merge behaviours at concrete inputs. -/
theorem c2_witness :
    ((hybrid_search_fuse [docSimA] [docBmC] 10 (1/2)).1).Pairwise
      (fun a b => ¬ sameIdentity a b) ∧
    ((mergeStep (1/2) docBmA 0 stEx).merged = stEx.merged ∧
      hybridVal (getRef (mergeStep (1/2) docBmA 0 stEx) (Ref.dense 0)) =
        hybridVal (getRef stEx (Ref.dense 0)) + (1 - 1/2) * normVal docBmA ∧
      (getRef (mergeStep (1/2) docBmA 0 stEx) (Ref.dense 0)).source = "hybrid") ∧
    ((upsertKey "k" (Ref.dense 0) [("k", Ref.sparse 3)]).map Prod.fst =
        [("k", Ref.sparse 3)].map Prod.fst ∧
      (upsertKey "k" (Ref.dense 0) [("k", Ref.sparse 3)]).lookup "k" = some (Ref.dense 0)) :=
  ⟨(c2_amended_dedup [docSimA] [docBmC] 10 (1/2)).1 (by decide) (by decide),
   (c2_amended_dedup [docSimA] [docBmC] 10 (1/2)).2.1 docBmA 0 stEx (Ref.dense 0)
     (by decide) (by simp [refValid, stEx]),
   (c2_amended_dedup [docSimA] [docBmC] 10 (1/2)).2.2 "k" (Ref.dense 0) [("k", Ref.sparse 3)]
     (by decide)⟩

unseal Rat.add Rat.mul Rat.inv Rat.sub in
/-- C2 counterexample: two dense records with the same identity key (raw
similarities 1 and 1/2): the later one replaces the earlier entry, so the
fused hybrid score is 1/4 — not the 3/4 that adding the weighted
normalized score of the later record to the existing entry would give. -/
theorem c2_counterexample :
    keyListOf (hybrid_search_fuse [docSimA, docSimA2] [docBmC] 10 (1/2)).1 =
      ["C_unknown_0_unknown", "A_unknown_0_unknown"] ∧
    hybridVal ((hybrid_search_fuse [docSimA, docSimA2] [docBmC] 10 (1/2)).1.getD 1 dfltDoc) =
      1/4 ∧
    ¬ hybridVal ((hybrid_search_fuse [docSimA, docSimA2] [docBmC] 10 (1/2)).1.getD 1 dfltDoc) =
      1/2 * normVal ((normalizeVector [docSimA, docSimA2]).getD 0 dfltDoc) +
        1/2 * normVal ((normalizeVector [docSimA, docSimA2]).getD 1 dfltDoc) := by
  decide

theorem filter_hybrid_orderedInsert (v : Rat) (a : Doc) (l : List Doc) :
    (List.orderedInsert hybridGe a l).filter (fun d => decide (hybridVal d = v)) =
      if hybridVal a = v then a :: l.filter (fun d => decide (hybridVal d = v))
      else l.filter (fun d => decide (hybridVal d = v)) := by
  rw [List.orderedInsert_eq_take_drop, List.filter_append]
  by_cases hv : hybridVal a = v
  · rw [if_pos hv]
    have hpre : (List.takeWhile (fun b => decide ¬ hybridGe a b) l).filter
        (fun d => decide (hybridVal d = v)) = [] := by
      rw [List.filter_eq_nil_iff]
      intro b hb
      have hbb := List.mem_takeWhile_imp hb
      simp only [decide_eq_true_eq] at hbb ⊢
      intro hbv
      exact hbb (by rw [hybridGe, hbv, hv])
    rw [hpre, List.filter_cons_of_pos (by simpa using hv), List.nil_append]
    congr 1
    conv_rhs => rw [← List.takeWhile_append_dropWhile (fun b => decide ¬ hybridGe a b) l]
    rw [List.filter_append, hpre, List.nil_append]
  · rw [if_neg hv, List.filter_cons_of_neg (by simpa using hv)]
    conv_rhs => rw [← List.takeWhile_append_dropWhile (fun b => decide ¬ hybridGe a b) l]
    rw [List.filter_append]

theorem filter_hybrid_sortDesc (v : Rat) (l : List Doc) :
    (sortDesc l).filter (fun d => decide (hybridVal d = v)) =
      l.filter (fun d => decide (hybridVal d = v)) := by
  induction l with
  | nil => rfl
  | cons a l ih =>
      show (List.orderedInsert hybridGe a (List.insertionSort hybridGe l)).filter _ = _
      rw [filter_hybrid_orderedInsert]
      by_cases hv : hybridVal a = v
      · rw [if_pos hv]
        show a :: (sortDesc l).filter _ = _
        rw [ih, List.filter_cons_of_pos (by simpa using hv)]
      · rw [if_neg hv]
        show (sortDesc l).filter _ = _
        rw [ih, List.filter_cons_of_neg (by simpa using hv)]

theorem mergedValues_parts (st : FuseState) (h : DenseThenSparse st) :
    mergedValues st = densePartVals st ++ sparsePartVals st := by
  obtain ⟨D, S, hDS, hD, hS⟩ := h
  unfold mergedValues densePartVals sparsePartVals
  rw [hDS, List.filter_append, List.filter_append]
  have h1 : D.filter (fun e => e.2.isDense) = D := List.filter_eq_self.mpr hD
  have h2 : S.filter (fun e => e.2.isDense) = [] := by
    rw [List.filter_eq_nil_iff]
    intro e he
    rw [hS e he]
    exact Bool.false_ne_true
  have h3 : D.filter (fun e => !e.2.isDense) = [] := by
    rw [List.filter_eq_nil_iff]
    intro e he
    rw [hD e he]
    exact Bool.false_ne_true
  have h4 : S.filter (fun e => !e.2.isDense) = S := by
    apply List.filter_eq_self.mpr
    intro e he
    rw [hS e he]
    rfl
  rw [h1, h2, h3, h4, List.append_nil, List.nil_append, List.map_append]

/-- C6: on non-empty inputs the fused output is the stable descending sort of
the merge-map values truncated to `top_k`: it is sorted by descending hybrid
score, and among candidates with equal hybrid score the insertion order of the
merge map is kept — all dense-seeded entries precede all sparse-only entries. -/
theorem c6_sorted_stable (dense sparse : List Doc) (top_k : Nat) (alpha : Rat)
    (hd : dense ≠ []) (hs : sparse ≠ []) :
    (hybrid_search_fuse dense sparse top_k alpha).1 =
      (sortDesc (mergedValues (fuseState dense sparse alpha))).take top_k ∧
    ((hybrid_search_fuse dense sparse top_k alpha).1).Sorted hybridGe ∧
    (∀ v : Rat,
      (sortDesc (mergedValues (fuseState dense sparse alpha))).filter
          (fun d => decide (hybridVal d = v)) =
        (densePartVals (fuseState dense sparse alpha)).filter
            (fun d => decide (hybridVal d = v)) ++
          (sparsePartVals (fuseState dense sparse alpha)).filter
            (fun d => decide (hybridVal d = v))) := by
  have he : (hybrid_search_fuse dense sparse top_k alpha).1 =
      (sortDesc (mergedValues (fuseState dense sparse alpha))).take top_k := by
    rw [hybrid_search_fuse_nonempty dense sparse top_k alpha hd hs]
  refine ⟨he, ?_, ?_⟩
  · rw [he]
    exact List.Pairwise.sublist (List.take_sublist top_k _) (sortDesc_sorted _)
  · intro v
    rw [filter_hybrid_sortDesc,
      mergedValues_parts _ (fuseState_invariants dense sparse alpha).2.2.2, List.filter_append]

/-- C6 witness: sortedness of the fused output at a concrete input. -/
theorem c6_witness :
    ((hybrid_search_fuse [docSimA, docSimB] [docBmC] 10 (1/2)).1).Sorted hybridGe :=
  (c6_sorted_stable [docSimA, docSimB] [docBmC] 10 (1/2) (by decide) (by decide)).2.1

theorem mergedHybridAt_dense_only (dense sparse : List Doc) (alpha : Rat) (k : String)
    (hk : k ∈ keyListOf dense) (hks : ¬ k ∈ keyListOf sparse) :
    mergedHybridAt (fuseState dense sparse alpha) k =
      alpha * lastNormAt (normalizeVector dense) k := by
  have hk2 : k ∈ keyListOf (normalizeVector dense) := by
    rw [keyListOf_normalizeVector]
    exact hk
  obtain ⟨j, hj⟩ : ∃ j, lastKeyIdx k (normalizeVector dense) = some j :=
    Option.isSome_iff_exists.mp (lastKeyIdx_isSome_iff.mpr hk2)
  have hlkseed : (seedState dense sparse alpha).merged.lookup k = some (Ref.dense j) := by
    show (seedMerged [] 0 (normalizeVector dense)).lookup k = _
    rw [lookup_seedMerged, hj]
    simp
  obtain ⟨hinvS, hspS, _⟩ := seedState_invariants dense sparse alpha
  have hlen0 : 0 + (normalizeBm25 sparse).length ≤ (seedState dense sparse alpha).sparse.length := by
    simp [seedState]
  have hloop := mergeLoop_preserves alpha (normalizeBm25 sparse) 0
    (seedState dense sparse alpha) hinvS hspS hlen0
  have hlkfin : (fuseState dense sparse alpha).merged.lookup k = some (Ref.dense j) := by
    rw [fuseState_eq]
    exact hloop.2.2.2.2 k _ hlkseed
  have hfold := mergeLoop_ref_fold alpha (normalizeBm25 sparse) 0 (seedState dense sparse alpha)
    k (Ref.dense j) hinvS hspS hlen0 hlkseed
  have hfilter : ((normalizeBm25 sparse).filter fun d2 => decide (docKey d2 = k)) = [] := by
    rw [List.filter_eq_nil_iff]
    intro x hx
    simp only [decide_eq_true_eq]
    intro hxk
    apply hks
    rw [← keyListOf_normalizeBm25 sparse]
    exact hxk ▸ List.mem_map_of_mem docKey hx
  rw [hfilter, List.foldl_nil] at hfold
  have hjlt : j < (normalizeVector dense).length := lastKeyIdx_lt hj
  have hgr : getRef (seedState dense sparse alpha) (Ref.dense j) =
      setDenseHybrid alpha ((normalizeVector dense).getD j dfltDoc) := by
    show ((normalizeVector dense).map (setDenseHybrid alpha)).getD j dfltDoc = _
    exact getD_map_of_lt _ _ j dfltDoc dfltDoc hjlt
  rw [mergedHybridAt, hlkfin]
  show hybridVal (getRef (fuseState dense sparse alpha) (Ref.dense j)) = _
  rw [fuseState_eq, hfold, hgr, lastNormAt, hj]
  rfl

/-- C8 (amended): for a candidate key present only in the dense list whose
surviving normalized dense score is positive, the merged hybrid score is
strictly increasing in alpha; with a zero normalized score it is constant. -/
theorem c8_amended_monotonic (dense sparse : List Doc) (alpha1 alpha2 : Rat) (k : String)
    (_hd : dense ≠ []) (_hs : sparse ≠ [])
    (hk : k ∈ keyListOf dense) (hks : ¬ k ∈ keyListOf sparse)
    (ha : alpha1 < alpha2) (_ha2 : alpha2 ≤ 1)
    (hpos : 0 < lastNormAt (normalizeVector dense) k) :
    mergedHybridAt (fuseState dense sparse alpha1) k <
      mergedHybridAt (fuseState dense sparse alpha2) k := by
  rw [mergedHybridAt_dense_only dense sparse alpha1 k hk hks,
    mergedHybridAt_dense_only dense sparse alpha2 k hk hks]
  exact mul_lt_mul_of_pos_right ha hpos

unseal Rat.add Rat.mul Rat.inv Rat.sub in
/-- C8 witness: a dense-only candidate with positive normalized score gets a
strictly larger hybrid score at alpha 1/2 than at alpha 1/4. -/
theorem c8_witness :
    mergedHybridAt (fuseState [docSimA, docSimZ] [docBmC] (1/4)) (docKey docSimA) <
      mergedHybridAt (fuseState [docSimA, docSimZ] [docBmC] (1/2)) (docKey docSimA) :=
  c8_amended_monotonic [docSimA, docSimZ] [docBmC] (1/4) (1/2) (docKey docSimA)
    (by decide) (by decide) (by decide) (by decide) (by decide) (by decide) (by decide)

unseal Rat.add Rat.mul Rat.inv Rat.sub in
/-- C8 counterexample: a candidate present only in the dense list whose raw
similarity is 0 keeps hybrid score 0 when alpha grows from 1/4 to 1/2 (with
alpha at most 1): the hybrid score is not strictly increasing in alpha. -/
theorem c8_counterexample :
    docKey docSimZ ∈ keyListOf [docSimA, docSimZ] ∧
    ¬ docKey docSimZ ∈ keyListOf [docBmC] ∧
    (1/4 : Rat) < 1/2 ∧ (1/2 : Rat) ≤ 1 ∧
    mergedHybridAt (fuseState [docSimA, docSimZ] [docBmC] (1/4)) (docKey docSimZ) = 0 ∧
    mergedHybridAt (fuseState [docSimA, docSimZ] [docBmC] (1/2)) (docKey docSimZ) = 0 ∧
    ¬ mergedHybridAt (fuseState [docSimA, docSimZ] [docBmC] (1/4)) (docKey docSimZ) <
        mergedHybridAt (fuseState [docSimA, docSimZ] [docBmC] (1/2)) (docKey docSimZ) := by
  decide

theorem getD_mem_take (l : List Doc) (jj : Nat) (h : jj < l.length) :
    l.getD jj dfltDoc ∈ l.take (jj + 1) := by
  have hlen : jj < (l.take (jj + 1)).length := by
    rw [List.length_take]
    omega
  have heq : (l.take (jj + 1)).getD jj dfltDoc = l.getD jj dfltDoc := by
    rw [List.getD_eq_getElem?_getD, List.getD_eq_getElem?_getD, List.getElem?_take]
    simp
  rw [← heq]
  exact getD_mem_of_lt _ _ _ hlen

/-- C3 (amended): on non-empty inputs each of which carries at most one record
per identity key, the hybrid score of every fused candidate is
`alpha * normalized_dense + (1 - alpha) * normalized_sparse`, a key absent from
one retriever contributing 0 for that term. -/
theorem c3_blend_formula (dense sparse : List Doc) (top_k : Nat) (alpha : Rat)
    (hd : dense ≠ []) (hs : sparse ≠ [])
    (hnd : (keyListOf dense).Nodup) (hns : (keyListOf sparse).Nodup) :
    ∀ d ∈ (hybrid_search_fuse dense sparse top_k alpha).1,
      hybridVal d = alpha * normAt (normalizeVector dense) (docKey d) +
        (1 - alpha) * normAt (normalizeBm25 sparse) (docKey d) := by
  intro d hdmem
  have he : (hybrid_search_fuse dense sparse top_k alpha).1 =
      (sortDesc (mergedValues (fuseState dense sparse alpha))).take top_k := by
    rw [hybrid_search_fuse_nonempty dense sparse top_k alpha hd hs]
  rw [he] at hdmem
  have hmem1 : d ∈ sortDesc (mergedValues (fuseState dense sparse alpha)) :=
    List.take_subset _ _ hdmem
  have hmem2 : d ∈ mergedValues (fuseState dense sparse alpha) :=
    (sortDesc_perm _).mem_iff.mp hmem1
  obtain ⟨e, hememF, hed⟩ := List.mem_map.mp hmem2
  have hkeyd : docKey (getRef (fuseState dense sparse alpha) e.2) = e.1 :=
    ((fuseState_invariants dense sparse alpha).1.1 e hememF).2
  obtain ⟨hinvS, hspS, _⟩ := seedState_invariants dense sparse alpha
  have hlen0 : 0 + (normalizeBm25 sparse).length ≤ (seedState dense sparse alpha).sparse.length := by
    simp [seedState]
  have hndv : (keyListOf (normalizeVector dense)).Nodup := by
    rw [keyListOf_normalizeVector]
    exact hnd
  have hnsb : (keyListOf (normalizeBm25 sparse)).Nodup := by
    rw [keyListOf_normalizeBm25]
    exact hns
  have hememL : e ∈ (mergeSparseLoop alpha (normalizeBm25 sparse) 0
      (seedState dense sparse alpha)).merged := by
    rw [← fuseState_eq]
    exact hememF
  subst hed
  rw [hkeyd]
  rcases mergeLoop_mem_char alpha (normalizeBm25 sparse) 0 (seedState dense sparse alpha)
      hinvS hspS hlen0 e hememL with hseed | ⟨hnotin, jj, hjj, he1, he2, hval⟩
  · -- entry seeded by the dense loop
    have hlkseed : (seedState dense sparse alpha).merged.lookup e.1 = some e.2 :=
      lookup_of_mem_nodup hinvS.2 hseed
    have hfold := mergeLoop_ref_fold alpha (normalizeBm25 sparse) 0
      (seedState dense sparse alpha) e.1 e.2 hinvS hspS hlen0 hlkseed
    have hseed2 : e ∈ seedMerged [] 0 (normalizeVector dense) := hseed
    rcases mem_seedMerged hseed2 with h0 | ⟨j2, hj2, hej2⟩
    · cases h0
    · have hgr : getRef (seedState dense sparse alpha) e.2 =
          setDenseHybrid alpha ((normalizeVector dense).getD j2 dfltDoc) := by
        rw [hej2]
        show ((normalizeVector dense).map (setDenseHybrid alpha)).getD (0 + j2) dfltDoc = _
        rw [Nat.zero_add]
        exact getD_map_of_lt _ _ j2 dfltDoc dfltDoc hj2
      have hkey1 : e.1 = docKey ((normalizeVector dense).getD j2 dfltDoc) := by
        rw [hej2]
      rw [fuseState_eq, hfold, hgr, hkey1]
      rw [filter_key_of_nodup hnsb]
      rw [normAt_getD_of_nodup hndv hj2]
      cases hfind : (normalizeBm25 sparse).find?
          (fun d2 => decide (docKey d2 = docKey ((normalizeVector dense).getD j2 dfltDoc))) with
      | none =>
          rw [List.foldl_nil]
          have hz : normAt (normalizeBm25 sparse)
              (docKey ((normalizeVector dense).getD j2 dfltDoc)) = 0 := by
            rw [normAt, hfind]
          rw [hz]
          show alpha * normVal ((normalizeVector dense).getD j2 dfltDoc) = _
          ring
      | some x =>
          rw [List.foldl_cons, List.foldl_nil]
          have hx : normAt (normalizeBm25 sparse)
              (docKey ((normalizeVector dense).getD j2 dfltDoc)) = normVal x := by
            rw [normAt, hfind]
          rw [hx]
          show alpha * normVal ((normalizeVector dense).getD j2 dfltDoc) +
              (1 - alpha) * normVal x = _
          ring
  · -- entry inserted by the sparse loop
    have hpw : (normalizeBm25 sparse).Pairwise (fun a b => docKey a ≠ docKey b) := by
      have h5 := hnsb
      rw [keyListOf, List.Nodup, List.pairwise_map] at h5
      exact h5
    have hfilter : ((normalizeBm25 sparse).drop (jj + 1)).filter
        (fun d2 => decide (docKey d2 = e.1)) = [] := by
      rw [List.filter_eq_nil_iff]
      intro x hx
      simp only [decide_eq_true_eq]
      intro hxk
      have hmemtake : (normalizeBm25 sparse).getD jj dfltDoc ∈
          (normalizeBm25 sparse).take (jj + 1) := getD_mem_take _ jj hjj
      have hne := List.Sorted.rel_of_mem_take_of_mem_drop hpw hmemtake hx
      exact hne (he1 ▸ hxk.symm)
    rw [hfilter, List.foldl_nil] at hval
    have hnotvn : ¬ e.1 ∈ keyListOf (normalizeVector dense) := by
      intro hmem
      apply hnotin
      obtain ⟨j0, hj0⟩ := Option.isSome_iff_exists.mp (lastKeyIdx_isSome_iff.mpr hmem)
      have hlk0 : (seedState dense sparse alpha).merged.lookup e.1 =
          some (Ref.dense (0 + j0)) := by
        show (seedMerged [] 0 (normalizeVector dense)).lookup e.1 = _
        rw [lookup_seedMerged, hj0]
      exact lookup_isSome_iff_mem.mp (by rw [hlk0]; rfl)
    have hz : normAt (normalizeVector dense) e.1 = 0 := normAt_eq_zero_of_not_mem hnotvn
    have hsx : normAt (normalizeBm25 sparse) e.1 =
        normVal ((normalizeBm25 sparse).getD jj dfltDoc) := by
      rw [he1]
      exact normAt_getD_of_nodup hnsb hjj
    rw [fuseState_eq, hval, hz, hsx]
    show (1 - alpha) * normVal ((normalizeBm25 sparse).getD jj dfltDoc) = _
    ring

unseal Rat.add Rat.mul Rat.inv Rat.sub in
/-- C3 witness: the blending formula at a concrete fused candidate. -/
theorem c3_witness :
    hybridVal ((hybrid_search_fuse [docSimA, docSimZ] [docBmA] 10 (1/2)).1.getD 0 dfltDoc) =
      1/2 * normAt (normalizeVector [docSimA, docSimZ])
          (docKey ((hybrid_search_fuse [docSimA, docSimZ] [docBmA] 10 (1/2)).1.getD 0 dfltDoc)) +
        (1 - 1/2) * normAt (normalizeBm25 [docBmA])
          (docKey ((hybrid_search_fuse [docSimA, docSimZ] [docBmA] 10 (1/2)).1.getD 0 dfltDoc)) :=
  c3_blend_formula [docSimA, docSimZ] [docBmA] 10 (1/2) (by decide) (by decide)
    (by decide) (by decide) _ (by decide)

unseal Rat.add Rat.mul Rat.inv Rat.sub in
/-- C3 counterexample: with two sparse records sharing one identity key (raw
scores 1 and 1/2) and a dense record with a different key, the fused entry for
the duplicated key has hybrid score 3/4 — the contributions accumulate — while
the blending formula (the entry is absent from the dense list and its
normalized sparse score is 1) predicts 1/2. -/
theorem c3_counterexample :
    ¬ docKey docBmB1 ∈ keyListOf [docSimA] ∧
    ((hybrid_search_fuse [docSimA] [docBmB1, docBmB2] 10 (1/2)).1.getD 0 dfltDoc).normalized_score
        = some 1 ∧
    docKey ((hybrid_search_fuse [docSimA] [docBmB1, docBmB2] 10 (1/2)).1.getD 0 dfltDoc) =
      docKey docBmB1 ∧
    hybridVal ((hybrid_search_fuse [docSimA] [docBmB1, docBmB2] 10 (1/2)).1.getD 0 dfltDoc) =
      3/4 ∧
    ¬ hybridVal ((hybrid_search_fuse [docSimA] [docBmB1, docBmB2] 10 (1/2)).1.getD 0 dfltDoc) =
      1/2 * normAt (normalizeVector [docSimA]) (docKey docBmB1) +
        (1 - 1/2) * normAt (normalizeBm25 [docBmB1, docBmB2]) (docKey docBmB1) := by
  decide

theorem mergeLoop_dense_pointwise (alpha : Rat) (P : Doc → Prop)
    (hP : ∀ (a : Rat) (d m : Doc), P m → P (addSparse a d m)) :
    ∀ (rest : List Doc) (j : Nat) (st : FuseState),
      (∀ i, i < st.dense.length → P (st.dense.getD i dfltDoc)) →
      ∀ i, i < (mergeSparseLoop alpha rest j st).dense.length →
        P ((mergeSparseLoop alpha rest j st).dense.getD i dfltDoc) := by
  intro rest
  induction rest with
  | nil => intro j st h i hi; exact h i hi
  | cons d rest2 ih =>
      intro j st h i hi
      rw [mergeSparseLoop] at hi ⊢
      refine ih (j + 1) (mergeStep alpha d j st) ?_ i hi
      intro i2 hi2
      cases hl : st.merged.lookup (docKey d) with
      | some r =>
          rw [mergeStep_hit hl] at hi2 ⊢
          cases r with
          | dense i0 =>
              show P ((st.dense.set i0 _).getD i2 dfltDoc)
              have hlen : i2 < st.dense.length := by
                simpa [updateRef] using hi2
              by_cases hii : i0 = i2
              · subst hii
                rw [getD_set_self st.dense i0 _ hlen]
                exact hP alpha d _ (h i0 hlen)
              · rw [getD_set_ne st.dense i0 i2 _ hii]
                exact h i2 hlen
          | sparse i0 =>
              show P (st.dense.getD i2 dfltDoc)
              exact h i2 (by simpa [updateRef] using hi2)
      | none =>
          rw [mergeStep_miss hl] at hi2 ⊢
          show P (st.dense.getD i2 dfltDoc)
          exact h i2 (by simpa using hi2)

theorem mergeLoop_sparse_pointwise (alpha : Rat) (P : Doc → Prop)
    (hP : ∀ (a : Rat) (d m : Doc), P m → P (addSparse a d m))
    (hPd : ∀ d : Doc, P d → P { d with hybrid_score := some ((1 - alpha) * normVal d) }) :
    ∀ (rest : List Doc) (j : Nat) (st : FuseState),
      (∀ d ∈ rest, P d) →
      (∀ i, i < st.sparse.length → P (st.sparse.getD i dfltDoc)) →
      ∀ i, i < (mergeSparseLoop alpha rest j st).sparse.length →
        P ((mergeSparseLoop alpha rest j st).sparse.getD i dfltDoc) := by
  intro rest
  induction rest with
  | nil => intro j st _ h i hi; exact h i hi
  | cons d rest2 ih =>
      intro j st hrest h i hi
      rw [mergeSparseLoop] at hi ⊢
      refine ih (j + 1) (mergeStep alpha d j st) (fun d2 hd2 => hrest d2 (List.mem_cons_of_mem _ hd2)) ?_ i hi
      intro i2 hi2
      cases hl : st.merged.lookup (docKey d) with
      | some r =>
          rw [mergeStep_hit hl] at hi2 ⊢
          cases r with
          | dense i0 =>
              show P (st.sparse.getD i2 dfltDoc)
              exact h i2 (by simpa [updateRef] using hi2)
          | sparse i0 =>
              show P ((st.sparse.set i0 _).getD i2 dfltDoc)
              have hlen : i2 < st.sparse.length := by
                simpa [updateRef] using hi2
              by_cases hii : i0 = i2
              · subst hii
                rw [getD_set_self st.sparse i0 _ hlen]
                exact hP alpha d _ (h i0 hlen)
              · rw [getD_set_ne st.sparse i0 i2 _ hii]
                exact h i2 hlen
      | none =>
          rw [mergeStep_miss hl] at hi2 ⊢
          show P ((st.sparse.set j _).getD i2 dfltDoc)
          have hlen : i2 < st.sparse.length := by
            simpa using hi2
          by_cases hjj : j = i2
          · subst hjj
            rw [getD_set_self st.sparse j _ hlen]
            exact hPd d (hrest d (List.mem_cons_self _ _))
          · rw [getD_set_ne st.sparse j i2 _ hjj]
            exact h i2 hlen

theorem foldl_addSparse_source (alpha : Rat) :
    ∀ (l : List Doc) (init : Doc), l ≠ [] →
      (l.foldl (fun m d2 => addSparse alpha d2 m) init).source = "hybrid" := by
  intro l
  induction l with
  | nil => intro init h; cases h rfl
  | cons d l2 ih =>
      intro init _
      rw [List.foldl_cons]
      cases l2 with
      | nil => rfl
      | cons d2 l3 => exact ih _ (by simp)

theorem foldl_addSparse_docKey (alpha : Rat) :
    ∀ (l : List Doc) (init : Doc),
      docKey (l.foldl (fun m d2 => addSparse alpha d2 m) init) = docKey init := by
  intro l
  induction l with
  | nil => intro init; rfl
  | cons d l2 ih =>
      intro init
      rw [List.foldl_cons, ih, docKey_addSparse]

theorem fuse_dense_source_hybrid (dense sparse : List Doc) (alpha : Rat) (k : String)
    (hk : k ∈ keyListOf dense) (hks : k ∈ keyListOf sparse) :
    ∃ j, j < dense.length ∧
      ((fuseState dense sparse alpha).dense.getD j dfltDoc).source = "hybrid" ∧
      docKey ((fuseState dense sparse alpha).dense.getD j dfltDoc) = k := by
  have hk2 : k ∈ keyListOf (normalizeVector dense) := by
    rw [keyListOf_normalizeVector]
    exact hk
  obtain ⟨j, hj⟩ : ∃ j, lastKeyIdx k (normalizeVector dense) = some j :=
    Option.isSome_iff_exists.mp (lastKeyIdx_isSome_iff.mpr hk2)
  have hlkseed : (seedState dense sparse alpha).merged.lookup k = some (Ref.dense j) := by
    show (seedMerged [] 0 (normalizeVector dense)).lookup k = _
    rw [lookup_seedMerged, hj]
    simp
  obtain ⟨hinvS, hspS, _⟩ := seedState_invariants dense sparse alpha
  have hlen0 : 0 + (normalizeBm25 sparse).length ≤ (seedState dense sparse alpha).sparse.length := by
    simp [seedState]
  have hfold := mergeLoop_ref_fold alpha (normalizeBm25 sparse) 0 (seedState dense sparse alpha)
    k (Ref.dense j) hinvS hspS hlen0 hlkseed
  have hjlt : j < (normalizeVector dense).length := lastKeyIdx_lt hj
  have hgr : getRef (seedState dense sparse alpha) (Ref.dense j) =
      setDenseHybrid alpha ((normalizeVector dense).getD j dfltDoc) := by
    show ((normalizeVector dense).map (setDenseHybrid alpha)).getD j dfltDoc = _
    exact getD_map_of_lt _ _ j dfltDoc dfltDoc hjlt
  have hfne : ((normalizeBm25 sparse).filter fun d2 => decide (docKey d2 = k)) ≠ [] := by
    have hk3 : k ∈ keyListOf (normalizeBm25 sparse) := by
      rw [keyListOf_normalizeBm25]
      exact hks
    rcases List.mem_map.mp hk3 with ⟨x, hx1, hx2⟩
    have : x ∈ (normalizeBm25 sparse).filter fun d2 => decide (docKey d2 = k) :=
      List.mem_filter.mpr ⟨hx1, by simpa using hx2⟩
    exact List.ne_nil_of_mem this
  have hval : getRef (fuseState dense sparse alpha) (Ref.dense j) =
      ((normalizeBm25 sparse).filter fun d2 => decide (docKey d2 = k)).foldl
        (fun m d2 => addSparse alpha d2 m)
        (setDenseHybrid alpha ((normalizeVector dense).getD j dfltDoc)) := by
    rw [fuseState_eq, hfold, hgr]
  refine ⟨j, ?_, ?_, ?_⟩
  · have : (normalizeVector dense).length = dense.length := by
      rw [normalizeVector, List.length_map]
    omega
  · show ((fuseState dense sparse alpha).dense.getD j dfltDoc).source = "hybrid"
    have hgr2 : (fuseState dense sparse alpha).dense.getD j dfltDoc =
        getRef (fuseState dense sparse alpha) (Ref.dense j) := rfl
    rw [hgr2, hval]
    exact foldl_addSparse_source alpha _ _ hfne
  · have hgr2 : (fuseState dense sparse alpha).dense.getD j dfltDoc =
        getRef (fuseState dense sparse alpha) (Ref.dense j) := rfl
    rw [hgr2, hval, foldl_addSparse_docKey, docKey_setDenseHybrid]
    exact lastKeyIdx_getD_key hj

/-- C10: with both inputs non-empty, the fusion phase mutates the records of the
caller in place: every dense record receives `normalized_score` and
`hybrid_score` fields, every sparse record receives a `normalized_score` field
(so every record of both lists differs afterwards from what the retriever
returned), and for every key present in both lists the field
`source` of the surviving dense record is rewritten to `hybrid`; only when one input list is empty are the
input lists left untouched. -/
theorem c10_inputs_mutated (dense sparse : List Doc) (top_k : Nat) (alpha : Rat) :
    (dense ≠ [] → sparse ≠ [] →
      (∀ i, i < dense.length →
        ((hybrid_search_fuse dense sparse top_k alpha).2.1.getD i dfltDoc).normalized_score.isSome
            = true ∧
        ((hybrid_search_fuse dense sparse top_k alpha).2.1.getD i dfltDoc).hybrid_score.isSome
            = true) ∧
      (∀ i, i < sparse.length →
        ((hybrid_search_fuse dense sparse top_k alpha).2.2.getD i dfltDoc).normalized_score.isSome
            = true) ∧
      ((∀ d ∈ dense, d.normalized_score = none) → ∀ i, i < dense.length →
        (hybrid_search_fuse dense sparse top_k alpha).2.1.getD i dfltDoc ≠
          dense.getD i dfltDoc) ∧
      ((∀ d ∈ sparse, d.normalized_score = none) → ∀ i, i < sparse.length →
        (hybrid_search_fuse dense sparse top_k alpha).2.2.getD i dfltDoc ≠
          sparse.getD i dfltDoc) ∧
      (∀ k, k ∈ keyListOf dense → k ∈ keyListOf sparse →
        ∃ j, j < dense.length ∧
          (((hybrid_search_fuse dense sparse top_k alpha).2.1.getD j dfltDoc).source = "hybrid" ∧
            docKey ((hybrid_search_fuse dense sparse top_k alpha).2.1.getD j dfltDoc) = k))) ∧
    ((dense = [] ∨ sparse = []) →
      (hybrid_search_fuse dense sparse top_k alpha).2.1 = dense ∧
      (hybrid_search_fuse dense sparse top_k alpha).2.2 = sparse) := by
  constructor
  · intro hd hs
    have h21 : (hybrid_search_fuse dense sparse top_k alpha).2.1 =
        (fuseState dense sparse alpha).dense := by
      rw [hybrid_search_fuse_nonempty dense sparse top_k alpha hd hs]
    have h22 : (hybrid_search_fuse dense sparse top_k alpha).2.2 =
        (fuseState dense sparse alpha).sparse := by
      rw [hybrid_search_fuse_nonempty dense sparse top_k alpha hd hs]
    have hlenD : (fuseState dense sparse alpha).dense.length = dense.length :=
      (fuseState_invariants dense sparse alpha).2.1
    have hlenS : (fuseState dense sparse alpha).sparse.length = sparse.length :=
      (fuseState_invariants dense sparse alpha).2.2.1
    have hdfields : ∀ i, i < dense.length →
        ((fuseState dense sparse alpha).dense.getD i dfltDoc).normalized_score.isSome = true ∧
        ((fuseState dense sparse alpha).dense.getD i dfltDoc).hybrid_score.isSome = true := by
      intro i hi
      rw [fuseState_eq]
      refine mergeLoop_dense_pointwise alpha
        (fun m => m.normalized_score.isSome = true ∧ m.hybrid_score.isSome = true)
        (fun a d2 m pm => ⟨pm.1, rfl⟩) (normalizeBm25 sparse) 0 (seedState dense sparse alpha)
        ?_ i ?_
      · intro i2 hi2
        have hi3 : i2 < (normalizeVector dense).length := by
          simpa [seedState, List.length_map] using hi2
        have hi4 : i2 < dense.length := by
          rw [normalizeVector, List.length_map] at hi3
          exact hi3
        show (((normalizeVector dense).map (setDenseHybrid alpha)).getD i2 dfltDoc).normalized_score.isSome = true ∧
          (((normalizeVector dense).map (setDenseHybrid alpha)).getD i2 dfltDoc).hybrid_score.isSome = true
        rw [getD_map_of_lt _ _ i2 dfltDoc dfltDoc hi3]
        constructor
        · show ((normalizeVector dense).getD i2 dfltDoc).normalized_score.isSome = true
          rw [normalizeVector, getD_map_of_lt _ _ i2 dfltDoc dfltDoc hi4]
          rfl
        · rfl
      · rw [← fuseState_eq]
        omega
    have hsfields : ∀ i, i < sparse.length →
        ((fuseState dense sparse alpha).sparse.getD i dfltDoc).normalized_score.isSome = true := by
      intro i hi
      rw [fuseState_eq]
      refine mergeLoop_sparse_pointwise alpha (fun m => m.normalized_score.isSome = true)
        (fun a d2 m pm => pm) (fun d2 p2 => p2) (normalizeBm25 sparse) 0
        (seedState dense sparse alpha) ?_ ?_ i ?_
      · intro d2 hd2
        rcases List.mem_map.mp hd2 with ⟨x, _, hx2⟩
        rw [← hx2]
        rfl
      · intro i2 hi2
        have hi3 : i2 < (normalizeBm25 sparse).length := by
          simpa [seedState] using hi2
        have hi4 : i2 < sparse.length := by
          rw [normalizeBm25, List.length_map] at hi3
          exact hi3
        show ((normalizeBm25 sparse).getD i2 dfltDoc).normalized_score.isSome = true
        rw [normalizeBm25, getD_map_of_lt _ _ i2 dfltDoc dfltDoc hi4]
        rfl
      · rw [← fuseState_eq]
        omega
    refine ⟨?_, ?_, ?_, ?_, ?_⟩
    · intro i hi
      rw [h21]
      exact hdfields i hi
    · intro i hi
      rw [h22]
      exact hsfields i hi
    · intro hnone i hi
      rw [h21]
      intro heq
      have h1 := (hdfields i hi).1
      rw [heq, hnone _ (getD_mem_of_lt dense i dfltDoc hi)] at h1
      cases h1
    · intro hnone i hi
      rw [h22]
      intro heq
      have h1 := hsfields i hi
      rw [heq, hnone _ (getD_mem_of_lt sparse i dfltDoc hi)] at h1
      cases h1
    · intro k hk hks
      obtain ⟨j, hj1, hj2, hj3⟩ := fuse_dense_source_hybrid dense sparse alpha k hk hks
      refine ⟨j, hj1, ?_, ?_⟩
      · rw [h21]
        exact hj2
      · rw [h21]
        exact hj3
  · intro h
    rcases h with h | h
    · subst h
      by_cases hs : sparse = [] <;> simp [hybrid_search_fuse, hs]
    · subst h
      by_cases hd : dense = [] <;> simp [hybrid_search_fuse, hd]

/-- C10 witness: at concrete non-empty inputs whose records carry no
`normalized_score`, both returned input lists differ element-wise from the
inputs, and the concrete empty case passes the inputs back. -/
theorem c10_witness :
    ((hybrid_search_fuse [docSimA] [docBmA] 10 (1/2)).2.1.getD 0 dfltDoc ≠
      [docSimA].getD 0 dfltDoc) ∧
    ((hybrid_search_fuse [docSimA] [] 10 (1/2)).2.1 = [docSimA] ∧
      (hybrid_search_fuse [docSimA] [] 10 (1/2)).2.2 = []) :=
  ⟨((c10_inputs_mutated [docSimA] [docBmA] 10 (1/2)).1 (by decide) (by decide)).2.2.1
      (by decide) 0 (by decide),
   (c10_inputs_mutated [docSimA] [] 10 (1/2)).2 (Or.inr rfl)⟩
